import Mathlib

/-!
# Verification of the arithmetic-expression front end (`expression_parser.js`)

A shallow embedding of the lexer and the precedence-climbing parser of
`src/expression_parser.js`, together with theorems settling the frozen claims
about the program.

Conventions of the embedding:
* JavaScript strings are `List Char`; `input[i]` (which may be `undefined`)
  is `List.get? i : Option Char`.
* The mutable lexer/parser objects become records threaded through the
  functions; a JavaScript `throw` becomes `Except.error`.
* The two `while` loops of the lexer (`eatWhitespace` and the digit scan in
  `readNumber`) are written with an explicit fuel of `input.length + 1`,
  which is always sufficient for states reachable from a fresh lexer
  (`Lexer.WF` below); the recursive parser carries a fuel argument as well,
  with a distinguished `outOfFuel` error that is never confused with the
  program's own failures.
* `isNaN(+literal)` and `parseFloat(literal)` are modelled by
  `jsToNumberIsNaN` and `jsParseFloat`, following the ECMAScript
  `ToNumber`/`parseFloat` string grammars.  `jsParseFloat` returns the exact
  rational value of the decimal text (IEEE-754 rounding of the mathematical
  value is not modelled; the claims only ever distinguish `NaN` from
  non-`NaN`, and rounding a finite decimal literal never produces `NaN`).
-/

namespace Sketchpad

/-- Token kinds, from `class TokenType` in `expression_parser.js`. -/
inductive TokenType where
  | EOF | PLUS | MINUS | MODULO | DIVIDE | MULTIPLY | LPAREN | RPAREN | NUMBER
deriving DecidableEq, Repr

/-- `class Token`: a kind together with the exact matched text. -/
structure Token where
  type : TokenType
  literal : List Char
deriving DecidableEq, Repr

/-- The token `new Token(TokenType.EOF, '')`. -/
def eofTok : Token := ⟨.EOF, []⟩

/-- ASCII decimal digit test (`ch >= '0' && ch <= '9'`). -/
def isDigitChar (c : Char) : Bool := 48 ≤ c.toNat && c.toNat ≤ 57

/-- `Lexer.isNumberComponent`, applied to a possibly-`undefined` character
(`undefined == '.'` and `undefined >= '0'` are both false in JavaScript). -/
def isNumberComponentO : Option Char → Bool
  | none => false
  | some c => c = '.' || isDigitChar c

/-- `Lexer.isWhitespace`, applied to a possibly-`undefined` character. -/
def lexIsWhitespace : Option Char → Bool
  | none => false
  | some c => c = ' ' || c = '\n' || c = '\t'

/-- The ECMAScript `StrWhiteSpaceChar` set (WhiteSpace ∪ LineTerminator),
used by the `Number(string)` and `parseFloat` string grammars. -/
def jsWhitespace (c : Char) : Bool :=
  let n := c.toNat
  n = 0x9 || n = 0xA || n = 0xB || n = 0xC || n = 0xD || n = 0x20 ||
  n = 0xA0 || n = 0x1680 || (0x2000 ≤ n && n ≤ 0x200A) ||
  n = 0x2028 || n = 0x2029 || n = 0x202F || n = 0x205F ||
  n = 0x3000 || n = 0xFEFF

def isHexDigitChar (c : Char) : Bool :=
  isDigitChar c || (97 ≤ c.toNat && c.toNat ≤ 102) || (65 ≤ c.toNat && c.toNat ≤ 70)

def isOctDigitChar (c : Char) : Bool := 48 ≤ c.toNat && c.toNat ≤ 55

def isBinDigitChar (c : Char) : Bool := c = '0' || c = '1'

/-- Valid `ExponentPart` followed by end of string, or the empty string. -/
def validExpOrEmpty : List Char → Bool
  | [] => true
  | c :: r =>
    (c = 'e' || c = 'E') &&
    (let r' := match r with
      | s :: r2 => if s = '+' || s = '-' then r2 else s :: r2
      | [] => []
     let p := r'.span isDigitChar
     !p.1.isEmpty && p.2.isEmpty)

/-- Valid unsigned `StrUnsignedDecimalLiteral` (without `Infinity`). -/
def validUnsignedDecimal (l : List Char) : Bool :=
  let p := l.span isDigitChar
  match p.2 with
  | '.' :: r2 =>
    let q := r2.span isDigitChar
    if p.1.isEmpty && q.1.isEmpty then false else validExpOrEmpty q.2
  | r1 => !p.1.isEmpty && validExpOrEmpty r1

/-- Unsigned decimal or `Infinity`. -/
def decimalOrInfinity (u : List Char) : Bool :=
  u = "Infinity".toList || validUnsignedDecimal u

/-- `StrDecimalLiteral`: optional sign, then decimal or `Infinity`. -/
def validSignedDecimal (t : List Char) : Bool :=
  match t with
  | c :: r => if c = '+' || c = '-' then decimalOrInfinity r else decimalOrInfinity (c :: r)
  | [] => false

/-- The embedding of JavaScript `isNaN(+s)`: `true` iff `ToNumber(s)` is
`NaN`, per the ECMAScript string-numeric-literal grammar (whitespace trim,
empty string is `0`, signed decimal/`Infinity`, unsigned hex/octal/binary). -/
def jsToNumberIsNaN (l : List Char) : Bool :=
  let t := ((l.dropWhile jsWhitespace).reverse.dropWhile jsWhitespace).reverse
  match t with
  | [] => false
  | '0' :: x :: r =>
    if x = 'x' || x = 'X' then !(!r.isEmpty && r.all isHexDigitChar)
    else if x = 'o' || x = 'O' then !(!r.isEmpty && r.all isOctDigitChar)
    else if x = 'b' || x = 'B' then !(!r.isEmpty && r.all isBinDigitChar)
    else !validSignedDecimal ('0' :: x :: r)
  | t' => !validSignedDecimal t'

/-- The value space of a JavaScript number as far as the claims need it:
`NaN`, a signed infinity, or an exact rational.  (IEEE-754 rounding of the
mathematical value is not modelled.) -/
inductive JsNum where
  | nan
  | inf (neg : Bool)
  | num (q : ℚ)
deriving DecidableEq, Repr

/-- Numeric value of a digit string. -/
def natOfDigits (ds : List Char) : Nat :=
  ds.foldl (fun a c => 10 * a + (c.toNat - 48)) 0

/-- The embedding of JavaScript `parseFloat(s)`: trim leading whitespace,
read an optional sign, then the longest `StrDecimalLiteral` prefix; `NaN`
when no prefix parses. -/
def jsParseFloat (l : List Char) : JsNum :=
  let t := l.dropWhile jsWhitespace
  let signed : Bool × List Char :=
    match t with
    | '-' :: r => (true, r)
    | '+' :: r => (false, r)
    | t' => (false, t')
  let neg := signed.1
  let u := signed.2
  if u.take 8 = "Infinity".toList then .inf neg
  else
    let p := u.span isDigitChar
    let ds1 := p.1
    let q : List Char × List Char :=
      match p.2 with
      | '.' :: rr => (rr.span isDigitChar).1 |> fun d => (d, (rr.span isDigitChar).2)
      | r1 => ([], r1)
    let ds2 := q.1
    if ds1.isEmpty && ds2.isEmpty then .nan
    else
      let e : Int :=
        match q.2 with
        | c :: rr =>
          if c = 'e' || c = 'E' then
            let se : Int × List Char :=
              match rr with
              | s :: rr3 => if s = '+' then (1, rr3) else if s = '-' then (-1, rr3) else (1, s :: rr3)
              | [] => (1, [])
            let eds := (se.2.span isDigitChar).1
            if eds.isEmpty then 0 else se.1 * (natOfDigits eds : Int)
          else 0
        | [] => 0
      let mantissa : ℚ :=
        (natOfDigits ds1 : ℚ) + (natOfDigits ds2 : ℚ) / ((10 : ℚ) ^ ds2.length)
      .num ((if neg then -mantissa else mantissa) * (10 : ℚ) ^ e)

/-- JavaScript `String.prototype.substring(start, end)`: both indices are
clamped to `[0, length]` and swapped when out of order. -/
def jsSubstring (l : List Char) (a b : Nat) : List Char :=
  let a' := min a l.length
  let b' := min b l.length
  (l.take (max a' b')).drop (min a' b')

/-- Errors of the program (JavaScript `throw new Error(...)`), plus the
fuel-exhaustion artifact of the embedding. -/
inductive PError where
  /-- `Invalid NUMBER token "<lit>"` thrown by `Lexer.nextToken`. -/
  | invalidNumber (lit : List Char)
  /-- `expected "NUMBER" but got "<got>"` thrown by the `NumberExpression`
  constructor. -/
  | expectedNumber (got : TokenType)
  /-- `expected operator but got "<got>"` thrown by the climbing loop of
  `Parser.parse`. -/
  | expectedOperator (got : TokenType)
  /-- `expected "<want>" but got "<got>"` thrown by `Parser.expect`. -/
  | expectedType (want got : TokenType)
  /-- Artifact of the fuelled embedding; never the result of a run with
  sufficient fuel. -/
  | outOfFuel
deriving DecidableEq, Repr

/-- `class Lexer`: the raw input plus the scanning cursor.  `_c` is
`input[_pos]`, which may be `undefined` (`none`). -/
structure Lexer where
  input : List Char
  _c : Option Char
  _pos : Nat
  _next_pos : Nat
deriving DecidableEq, Repr

namespace Lexer

/-- `Lexer.next`: `_pos = _next_pos; _next_pos++; _c = input[_pos]`. -/
def next (lx : Lexer) : Lexer :=
  { lx with
    _pos := lx._next_pos
    _next_pos := lx._next_pos + 1
    _c := lx.input[lx._next_pos]? }

/-- The `Lexer` constructor: fields start at `'' / 0 / 0` and `next()` runs
once.  (The initial `_c = ''` is modelled as `none`; it is overwritten by
the constructor's `next()` before any read.) -/
def new (input : List Char) : Lexer :=
  next { input := input, _c := none, _pos := 0, _next_pos := 0 }

/-- The loop body of `eatWhitespace`, with explicit fuel. -/
def eatWhitespaceFuel : Nat → Lexer → Lexer
  | 0, lx => lx
  | n + 1, lx =>
    if lexIsWhitespace lx._c then eatWhitespaceFuel n lx.next else lx

/-- `Lexer.eatWhitespace`; fuel `input.length + 1` always suffices from a
reachable state (see `Lexer.WF`). -/
def eatWhitespace (lx : Lexer) : Lexer :=
  eatWhitespaceFuel (lx.input.length + 1) lx

/-- The scanning loop of `readNumber` (`while isNumberComponent(peek()) next()`),
with explicit fuel. -/
def scanNumberFuel : Nat → Lexer → Lexer
  | 0, lx => lx
  | n + 1, lx =>
    if isNumberComponentO (lx.input[lx._next_pos]?) then
      scanNumberFuel n lx.next
    else lx

/-- `Lexer.readNumber`: scan a maximal digit-or-dot run after the current
character and return `input.substring(start, _pos + 1)`. -/
def readNumber (lx : Lexer) : List Char × Lexer :=
  let start := lx._pos
  let lx' := scanNumberFuel (lx.input.length + 1) lx
  (jsSubstring lx'.input start (lx'._pos + 1), lx')

/-- `Lexer.readChar`.  The `while (this._next_pos <= this.input.length)`
loop body returns on its first iteration in every branch, so it is a single
conditional; when the guard fails the JavaScript function returns
`undefined` (`none`). -/
def readChar (lx : Lexer) : Option (List Char) × Lexer :=
  if lx._next_pos ≤ lx.input.length then
    let lx1 := eatWhitespace lx
    match lx1._c with
    | some '+' => (some ['+'], lx1)
    | some '-' => (some ['-'], lx1)
    | some '%' => (some ['%'], lx1)
    | some '/' => (some ['/'], lx1)
    | some '*' => (some ['*'], lx1)
    | some '(' => (some ['('], lx1)
    | some ')' => (some [')'], lx1)
    | _ =>
      let r := readNumber lx1
      (some r.1, r.2)
  else (none, lx)

/-- `Lexer.nextToken`. -/
def nextToken (lx : Lexer) : Except PError (Token × Lexer) :=
  let r := readChar lx
  let lx2 := r.2.next
  match r.1 with
  | some lit =>
    match lit with
    | ['+'] => .ok (⟨.PLUS, lit⟩, lx2)
    | ['-'] => .ok (⟨.MINUS, lit⟩, lx2)
    | ['%'] => .ok (⟨.MODULO, lit⟩, lx2)
    | ['/'] => .ok (⟨.DIVIDE, lit⟩, lx2)
    | ['*'] => .ok (⟨.MULTIPLY, lit⟩, lx2)
    | ['('] => .ok (⟨.LPAREN, lit⟩, lx2)
    | [')'] => .ok (⟨.RPAREN, lit⟩, lx2)
    | _ =>
      if jsToNumberIsNaN lit then .error (.invalidNumber lit)
      else .ok (⟨.NUMBER, lit⟩, lx2)
  | none => .ok (eofTok, lx2)

end Lexer

/-- The expression tree (`Expression` and its subclasses).  The `op` field
of the unary/binary nodes and the `value` field of number nodes are always
computed from the stored token at construction (`op = token.literal`,
`value = parseFloat(token.literal)`), so they are exposed as functions
(`Expr.op`, `NumberExpression.value`) rather than duplicated fields. -/
inductive Expr where
  /-- `NumberExpression` -/
  | num (token : Token)
  /-- `PrefixExpression` (field `rhs`) -/
  | unary (token : Token) (rhs : Expr)
  /-- `InfixExpression` (fields `lhs`, `rhs`) -/
  | binary (token : Token) (lhs : Expr) (rhs : Expr)
deriving DecidableEq, Repr

namespace Expr

/-- `this.op = this.token.literal` in the unary/binary constructors. -/
def op : Expr → List Char
  | num tok => tok.literal
  | unary tok _ => tok.literal
  | binary tok _ _ => tok.literal

/-- The `print()` methods: numbers print their literal, unary nodes print
`(<op><rhs>)` with no space, binary nodes print `(<lhs> <op> <rhs>)`. -/
def print : Expr → List Char
  | num tok => tok.literal
  | unary tok r => '(' :: (tok.literal ++ print r) ++ [')']
  | binary tok l r =>
    '(' :: (print l ++ ' ' :: (tok.literal ++ ' ' :: print r)) ++ [')']

end Expr

/-- `this.value = parseFloat(token.literal)` in the `NumberExpression`
constructor. -/
def NumberExpression.value (tok : Token) : JsNum := jsParseFloat tok.literal

/-- The `NumberExpression` constructor: fails unless the token is a NUMBER. -/
def mkNumberExpression (tok : Token) : Except PError Expr :=
  if tok.type = TokenType.NUMBER then .ok (.num tok)
  else .error (.expectedNumber tok.type)

/-- `TokenPrecedence.get`. -/
def precedenceGet : TokenType → Int
  | .MODULO => 9
  | .DIVIDE => 8
  | .MULTIPLY => 7
  | .EOF | .LPAREN | .RPAREN => -1
  | _ => 1

/-- `class Parser`: the lexer it owns plus the 1-token lookahead buffer. -/
structure Parser where
  lexer : Lexer
  _token : Token
  _next_token : Token
deriving DecidableEq, Repr

namespace Parser

/-- `Parser.next`: `_token = _next_token; _next_token = lexer.nextToken()`.
Propagates a lexer failure. -/
def nextE (ps : Parser) : Except PError Parser := do
  let r ← ps.lexer.nextToken
  .ok ⟨r.2, ps._next_token, r.1⟩

/-- The `Parser` constructor: load the two token pointers with two `next()`
calls.  (The initial `undefined` tokens, overwritten before any read, are
modelled as EOF tokens.) -/
def new (lx : Lexer) : Except PError Parser := do
  let ps1 ← nextE ⟨lx, eofTok, eofTok⟩
  nextE ps1

/-- `Parser.expect(type)`. -/
def expectE (ty : TokenType) (ps : Parser) : Except PError Parser :=
  if ps._next_token.type = ty then ps.nextE
  else .error (.expectedType ty ps._next_token.type)

end Parser

/-- The recursive core of `Parser.parse`, written as a single
fuel-structural function so that it computes by kernel reduction.
`.inl p` is a call `parse(p)`; `.inr (p, lhs)` is the state of the
climbing `while (p < this.nextPrecedence())` loop of `parse(p)` with
accumulated left-hand side `lhs`.  The `(` case inlines `parseGroup` and
the operator case inlines the `PrefixExpression` constructor, each of
which performs one recursive `parse` call; the loop case inlines the
`InfixExpression` constructor. -/
def parseStep : Nat → Int ⊕ (Int × Expr) → Parser → Except PError (Expr × Parser)
  | 0, _, _ => .error .outOfFuel
  | n + 1, .inl p, ps =>
    (match ps._token.type with
     | .LPAREN =>
       -- parseGroup: note `_precedence = this.currentPrecedence()` (of `(`)
       let prec := precedenceGet ps._token.type
       do
         let ps ← ps.nextE
         let r ← parseStep n (.inl prec) ps
         let ps ← Parser.expectE .RPAREN r.2
         .ok (r.1, ps)
     | .PLUS | .MINUS | .MODULO | .DIVIDE | .MULTIPLY =>
       -- PrefixExpression: operand parsed at the operator's own precedence
       let tok := ps._token
       let prec := precedenceGet tok.type
       do
         let ps ← ps.nextE
         let r ← parseStep n (.inl prec) ps
         .ok (Expr.unary tok r.1, r.2)
     | _ => do
       let e ← mkNumberExpression ps._token
       .ok (e, ps)) >>=
    fun lhs => parseStep n (.inr (p, lhs.1)) lhs.2
  | n + 1, .inr (p, lhs), ps =>
    if p < precedenceGet ps._next_token.type then do
      let ps ← ps.nextE
      match ps._token.type with
      | .PLUS | .MINUS | .MODULO | .DIVIDE | .MULTIPLY =>
        -- InfixExpression: rhs parsed at the operator's precedence
        let tok := ps._token
        let prec := precedenceGet tok.type
        do
          let ps ← ps.nextE
          let r ← parseStep n (.inl prec) ps
          parseStep n (.inr (p, Expr.binary tok lhs r.1)) r.2
      | _ => .error (.expectedOperator ps._token.type)
    else .ok (lhs, ps)

/-- `Parser.parse(p)`. -/
def parseE (n : Nat) (p : Int) (ps : Parser) : Except PError (Expr × Parser) :=
  parseStep n (.inl p) ps

/-- The climbing loop of `Parser.parse(p)` with accumulated `lhs`. -/
def climbE (n : Nat) (p : Int) (lhs : Expr) (ps : Parser) : Except PError (Expr × Parser) :=
  parseStep n (.inr (p, lhs)) ps

/-- Fuel that is always sufficient for an input of length `n` (the parser
consumes at least one token every two recursive calls). -/
def parserFuel (s : List Char) : Nat := 2 * s.length + 16

/-- The whole pipeline as the driver runs it: build a lexer and a parser on
the input and call `parse()` (minimum precedence 0). -/
def parseInput (s : List Char) : Except PError Expr := do
  let ps ← Parser.new (Lexer.new s)
  let r ← parseE (parserFuel s) 0 ps
  .ok r.1

instance {ε α : Type} [DecidableEq ε] [DecidableEq α] : DecidableEq (Except ε α) :=
  fun x y =>
    match x, y with
    | .ok a, .ok b =>
      if h : a = b then .isTrue (by rw [h])
      else .isFalse (fun hc => h (by cases hc; rfl))
    | .ok _, .error _ => .isFalse (fun hc => Except.noConfusion hc)
    | .error _, .ok _ => .isFalse (fun hc => Except.noConfusion hc)
    | .error a, .error b =>
      if h : a = b then .isTrue (by rw [h])
      else .isFalse (fun hc => h (by cases hc; rfl))

/-! ## A token-list view of the parser

For the round-trip claim the lazy, lexer-coupled parser above is related to
an identical parser reading from a list of already-lexed tokens.  The list
parser mirrors `parseStep` statement by statement; `Parser.next` becomes a
(total) pop that yields EOF tokens once the list is exhausted, exactly the
behaviour of the real lexer past end of input. -/

/-- Parser state over a token list: the current token plus the not yet
consumed stream (whose head is the lookahead token). -/
structure LSt where
  cur : Token
  rest : List Token
deriving DecidableEq, Repr

/-- The lookahead token (`_next_token`). -/
def LSt.peek (st : LSt) : Token := st.rest.headD eofTok

/-- `Parser.next` on the list view. -/
def LSt.nextL (st : LSt) : LSt := ⟨st.rest.headD eofTok, st.rest.tail⟩

/-- `Parser.expect` on the list view. -/
def expectL (ty : TokenType) (st : LSt) : Except PError LSt :=
  if st.peek.type = ty then .ok st.nextL
  else .error (.expectedType ty st.peek.type)

/-- `parseStep` transcribed onto the list view. -/
def parseLStep : Nat → Int ⊕ (Int × Expr) → LSt → Except PError (Expr × LSt)
  | 0, _, _ => .error .outOfFuel
  | n + 1, .inl p, st =>
    (match st.cur.type with
     | .LPAREN =>
       let prec := precedenceGet st.cur.type
       do
         let st := st.nextL
         let r ← parseLStep n (.inl prec) st
         let st ← expectL .RPAREN r.2
         .ok (r.1, st)
     | .PLUS | .MINUS | .MODULO | .DIVIDE | .MULTIPLY =>
       let tok := st.cur
       let prec := precedenceGet tok.type
       do
         let st := st.nextL
         let r ← parseLStep n (.inl prec) st
         .ok (Expr.unary tok r.1, r.2)
     | _ => do
       let e ← mkNumberExpression st.cur
       .ok (e, st)) >>=
    fun lhs => parseLStep n (.inr (p, lhs.1)) lhs.2
  | n + 1, .inr (p, lhs), st =>
    if p < precedenceGet st.peek.type then
      let st := st.nextL
      match st.cur.type with
      | .PLUS | .MINUS | .MODULO | .DIVIDE | .MULTIPLY =>
        let tok := st.cur
        let prec := precedenceGet tok.type
        let st := st.nextL
        do
          let r ← parseLStep n (.inl prec) st
          parseLStep n (.inr (p, Expr.binary tok lhs r.1)) r.2
      | _ => .error (.expectedOperator st.cur.type)
    else .ok (lhs, st)

/-- `Parser.parse(p)` on the list view. -/
def parseLE (n : Nat) (p : Int) (st : LSt) : Except PError (Expr × LSt) :=
  parseLStep n (.inl p) st

/-- The climbing loop on the list view. -/
def climbLE (n : Nat) (p : Int) (lhs : Expr) (st : LSt) : Except PError (Expr × LSt) :=
  parseLStep n (.inr (p, lhs)) st

/-- The primary-operand switch of `parse` on the list view, as a standalone
function (the body of the `.inl` branch of `parseLStep` before the climb). -/
def primaryL (n : Nat) (st : LSt) : Except PError (Expr × LSt) :=
  match st.cur.type with
  | .LPAREN =>
    let prec := precedenceGet st.cur.type
    do
      let st := st.nextL
      let r ← parseLStep n (.inl prec) st
      let st ← expectL .RPAREN r.2
      .ok (r.1, st)
  | .PLUS | .MINUS | .MODULO | .DIVIDE | .MULTIPLY =>
    let tok := st.cur
    let prec := precedenceGet tok.type
    do
      let st := st.nextL
      let r ← parseLStep n (.inl prec) st
      .ok (Expr.unary tok r.1, r.2)
  | _ => do
    let e ← mkNumberExpression st.cur
    .ok (e, st)

/-! ## Well-formedness and goodness predicates -/

/-- The lexer state with cursor at position `p` of input `I`: the shape of
every state reachable from `Lexer.new`. -/
def lexAt (I : List Char) (p : Nat) : Lexer := ⟨I, I[p]?, p, p + 1⟩

/-- Reachable lexer states: the lookahead invariant maintained by
`Lexer.next`. -/
def Lexer.WF (lx : Lexer) : Prop :=
  lx._next_pos = lx._pos + 1 ∧ lx._c = lx.input[lx._pos]?

/-- A lexer that has run past the end of its input: from here `nextToken`
returns EOF tokens forever. -/
def EOFStable (lx : Lexer) : Prop :=
  lx.WF ∧ lx.input.length < lx._next_pos

/-- The (finite, error-free) future token stream of a lexer, after which it
is exhausted. -/
inductive Fut : Lexer → List Token → Prop where
  | nil {lx} : EOFStable lx → Fut lx []
  | cons {lx t lx' L} : lx.nextToken = .ok (t, lx') → Fut lx' L → Fut lx (t :: L)

/-- A finite error-free segment of lexer output, with the state it leaves
behind. -/
inductive FutSeg : Lexer → List Token → Lexer → Prop where
  | nil (lx) : FutSeg lx [] lx
  | cons {lx t lx' L lx''} :
      lx.nextToken = .ok (t, lx') → FutSeg lx' L lx'' → FutSeg lx (t :: L) lx''

/-- The lookahead token `nt` and lexer `lx` of a lazy parser realise the
list-view stream `M`. -/
def StreamRel (nt : Token) (lx : Lexer) (M : List Token) : Prop :=
  (M = [] ∧ nt = eofTok ∧ EOFStable lx) ∨ (∃ M', M = nt :: M' ∧ Fut lx M')

/-- Simulation relation between the lazy parser state and the list view. -/
def Rel (ps : Parser) (st : LSt) : Prop :=
  ps._token = st.cur ∧ StreamRel ps._next_token ps.lexer st.rest

/-- Relation between results of the lazy parser and of the list parser. -/
inductive ResRel :
    Except PError (Expr × Parser) → Except PError (Expr × LSt) → Prop where
  | err (e) : ResRel (.error e) (.error e)
  | ok {a ps st} : Rel ps st → ResRel (.ok (a, ps)) (.ok (a, st))

/-- The seven single-character tokens of the lexer's `switch`. -/
def op7 (c : Char) : Bool :=
  c = '+' || c = '-' || c = '%' || c = '/' || c = '*' || c = '(' || c = ')'

/-- The three whitespace characters of `Lexer.isWhitespace`. -/
def ws3c (c : Char) : Bool := c = ' ' || c = '\n' || c = '\t'

/-- The token kind produced for each of the seven single-character tokens. -/
def opTypeOf (c : Char) : TokenType :=
  if c = '+' then .PLUS
  else if c = '-' then .MINUS
  else if c = '%' then .MODULO
  else if c = '/' then .DIVIDE
  else if c = '*' then .MULTIPLY
  else if c = '(' then .LPAREN
  else .RPAREN

/-- Shape of every nonempty NUMBER literal the lexer can emit: a first
character that is neither an operator nor lexer whitespace, a digit-or-dot
tail, and text that passes the `isNaN(+literal)` check. -/
def litGood (l : List Char) : Bool :=
  match l with
  | [] => false
  | c :: cs =>
    !op7 c && !ws3c c && cs.all (fun d => isNumberComponentO (some d)) &&
    !jsToNumberIsNaN l

/-- Shape of every token the lexer can emit. -/
def tokGood (t : Token) : Bool :=
  match t.type with
  | .NUMBER => t.literal.isEmpty || litGood t.literal
  | .PLUS => t.literal == ['+']
  | .MINUS => t.literal == ['-']
  | .MODULO => t.literal == ['%']
  | .DIVIDE => t.literal == ['/']
  | .MULTIPLY => t.literal == ['*']
  | .LPAREN => t.literal == ['(']
  | .RPAREN => t.literal == [')']
  | .EOF => t.literal.isEmpty

/-- The five operator token kinds. -/
def isOpType : TokenType → Bool
  | .PLUS | .MINUS | .MODULO | .DIVIDE | .MULTIPLY => true
  | _ => false

/-- Every token stored in the tree is of the shape the lexer emits
(number literals possibly empty). -/
def weakGood : Expr → Bool
  | .num tok => tok.type == .NUMBER && tokGood tok
  | .unary tok r => isOpType tok.type && tokGood tok && weakGood r
  | .binary tok l r => isOpType tok.type && tokGood tok && weakGood l && weakGood r

/-- No number literal in the tree is the empty string. -/
def noEmptyLit : Expr → Bool
  | .num tok => !tok.literal.isEmpty
  | .unary _ r => noEmptyLit r
  | .binary _ l r => noEmptyLit l && noEmptyLit r

/-- `weakGood` with all number literals nonempty. -/
def strongGood : Expr → Bool
  | .num tok => tok.type == .NUMBER && litGood tok.literal
  | .unary tok r => isOpType tok.type && tokGood tok && strongGood r
  | .binary tok l r => isOpType tok.type && tokGood tok && strongGood l && strongGood r

/-- Well-formed lazy parser state: reachable lexer, lexer-shaped tokens. -/
def WFP (ps : Parser) : Prop :=
  ps.lexer.WF ∧ tokGood ps._token ∧ tokGood ps._next_token

/-- The token sequence that lexing `Expr.print t` yields (shown below). -/
def tokensOf : Expr → List Token
  | .num tok => [tok]
  | .unary tok r => ⟨.LPAREN, ['(']⟩ :: tok :: (tokensOf r ++ [⟨.RPAREN, [')']⟩])
  | .binary tok l r =>
    ⟨.LPAREN, ['(']⟩ :: (tokensOf l ++ tok :: (tokensOf r ++ [⟨.RPAREN, [')']⟩]))

/-- The last token of `tokensOf t` (the parser's current token after it has
consumed a printed subtree). -/
def lastTokOf : Expr → Token
  | .num tok => tok
  | .unary _ _ => ⟨.RPAREN, [')']⟩
  | .binary _ _ _ => ⟨.RPAREN, [')']⟩

/-- List-view parser state positioned at the start of stream `L ++ R`. -/
def stOf (L R : List Token) : LSt := ⟨L.headD eofTok, L.tail ++ R⟩

/-- Fuel sufficient for the list parser to consume a printed subtree. -/
def boundFuel : Expr → Nat
  | .num _ => 1
  | .unary _ r => boundFuel r + 2
  | .binary _ l r => boundFuel l + boundFuel r + 3

/-- Modelled from the spec: "a NUMBER token's literal is always a
syntactically valid numeric string (optional `.`, digits)" — digits with at
most one dot and at least one digit.  Used to compare the spec's invariant
with what the code guarantees. -/
def specValidNumericLiteral (l : List Char) : Bool :=
  l.all (fun c => isDigitChar c || c = '.') && l.count '.' ≤ 1 && l.any isDigitChar

/-! ## Lemmas: lexer state normal forms -/

theorem lexAt_next (I : List Char) (p : Nat) : (lexAt I p).next = lexAt I (p + 1) := rfl

theorem Lexer_new_eq (I : List Char) : Lexer.new I = lexAt I 0 := rfl

theorem lexAt_wf (I : List Char) (p : Nat) : (lexAt I p).WF := ⟨rfl, rfl⟩

theorem wf_eq_lexAt {lx : Lexer} (h : lx.WF) : lx = lexAt lx.input lx._pos := by
  obtain ⟨I, c, p, np⟩ := lx
  obtain ⟨h1, h2⟩ := h
  simp only [lexAt] at *
  simp [h1, h2]

theorem eatWhitespaceFuel_stop {I : List Char} {p f : Nat}
    (h : lexIsWhitespace (I[p]?) = false) :
    Lexer.eatWhitespaceFuel (f + 1) (lexAt I p) = lexAt I p := by
  simp [Lexer.eatWhitespaceFuel, lexAt, h]

theorem eatWhitespaceFuel_step {I : List Char} {p f : Nat}
    (h : lexIsWhitespace (I[p]?) = true) :
    Lexer.eatWhitespaceFuel (f + 1) (lexAt I p) =
      Lexer.eatWhitespaceFuel f (lexAt I (p + 1)) := by
  simp [Lexer.eatWhitespaceFuel, lexAt, h, Lexer.next]

/-- Any two sufficient fuels give `eatWhitespaceFuel` the same result. -/
theorem eatWhitespaceFuel_irrel {I : List Char} :
    ∀ f g p, I.length - p < f → I.length - p < g →
      Lexer.eatWhitespaceFuel f (lexAt I p) = Lexer.eatWhitespaceFuel g (lexAt I p) := by
  intro f
  induction f with
  | zero => omega
  | succ f ihf =>
    intro g p hf hg
    match g, hg with
    | g + 1, hg =>
      by_cases h : lexIsWhitespace (I[p]?)
      · have hp : p < I.length := by
          by_contra hge
          rw [List.getElem?_eq_none (by omega)] at h
          simp [lexIsWhitespace] at h
        rw [eatWhitespaceFuel_step h, eatWhitespaceFuel_step h]
        exact ihf g (p + 1) (by omega) (by omega)
      · rw [eatWhitespaceFuel_stop (by simpa using h),
          eatWhitespaceFuel_stop (by simpa using h)]

theorem eatWhitespace_stop {I : List Char} {p : Nat}
    (h : lexIsWhitespace (I[p]?) = false) :
    (lexAt I p).eatWhitespace = lexAt I p :=
  eatWhitespaceFuel_stop h

theorem eatWhitespace_step {I : List Char} {p : Nat}
    (h : lexIsWhitespace (I[p]?) = true) :
    (lexAt I p).eatWhitespace = (lexAt I (p + 1)).eatWhitespace := by
  have hp : p < I.length := by
    by_contra hge
    rw [List.getElem?_eq_none (by omega)] at h
    simp [lexIsWhitespace] at h
  show Lexer.eatWhitespaceFuel (I.length + 1) _ = Lexer.eatWhitespaceFuel (I.length + 1) _
  rw [eatWhitespaceFuel_step h]
  exact eatWhitespaceFuel_irrel _ _ _ (by omega) (by omega)

/-- `eatWhitespace` lands on a non-whitespace position at or after `p`. -/
theorem eatWhitespace_canon (I : List Char) :
    ∀ k p, I.length - p ≤ k →
      ∃ q, p ≤ q ∧ (lexAt I p).eatWhitespace = lexAt I q ∧
        lexIsWhitespace (I[q]?) = false := by
  intro k
  induction k with
  | zero =>
    intro p hk
    have : I[p]? = none := List.getElem?_eq_none (by omega)
    exact ⟨p, le_refl p, eatWhitespace_stop (by simp [this, lexIsWhitespace]), by
      simp [this, lexIsWhitespace]⟩
  | succ k ih =>
    intro p hk
    by_cases h : lexIsWhitespace (I[p]?)
    · have hp : p < I.length := by
        by_contra hge
        rw [List.getElem?_eq_none (by omega)] at h
        simp [lexIsWhitespace] at h
      obtain ⟨q, hq1, hq2, hq3⟩ := ih (p + 1) (by omega)
      exact ⟨q, by omega, (eatWhitespace_step h).trans hq2, hq3⟩
    · exact ⟨p, le_refl p, eatWhitespace_stop (by simpa using h), by simpa using h⟩

theorem scanNumberFuel_stop {I : List Char} {p f : Nat}
    (h : isNumberComponentO (I[p + 1]?) = false) :
    Lexer.scanNumberFuel (f + 1) (lexAt I p) = lexAt I p := by
  simp [Lexer.scanNumberFuel, lexAt, h]

theorem scanNumberFuel_step {I : List Char} {p f : Nat}
    (h : isNumberComponentO (I[p + 1]?) = true) :
    Lexer.scanNumberFuel (f + 1) (lexAt I p) =
      Lexer.scanNumberFuel f (lexAt I (p + 1)) := by
  simp [Lexer.scanNumberFuel, lexAt, h, Lexer.next]

theorem scanNumberFuel_irrel {I : List Char} :
    ∀ f g p, I.length - p < f → I.length - p < g →
      Lexer.scanNumberFuel f (lexAt I p) = Lexer.scanNumberFuel g (lexAt I p) := by
  intro f
  induction f with
  | zero => omega
  | succ f ihf =>
    intro g p hf hg
    match g, hg with
    | g + 1, hg =>
      by_cases h : isNumberComponentO (I[p + 1]?)
      · have hp : p + 1 < I.length := by
          by_contra hge
          rw [List.getElem?_eq_none (by omega)] at h
          simp [isNumberComponentO] at h
        rw [scanNumberFuel_step h, scanNumberFuel_step h]
        exact ihf g (p + 1) (by omega) (by omega)
      · rw [scanNumberFuel_stop (by simpa using h), scanNumberFuel_stop (by simpa using h)]

/-- The digit scan of `readNumber` lands at the end of the maximal
digit-or-dot run after `p`, every character of which is a digit or dot. -/
theorem scanNumber_canon (I : List Char) :
    ∀ k p, I.length - p ≤ k →
      ∃ q, p ≤ q ∧
        Lexer.scanNumberFuel (I.length + 1) (lexAt I p) = lexAt I q ∧
        isNumberComponentO (I[q + 1]?) = false ∧
        (∀ i, p < i → i ≤ q → isNumberComponentO (I[i]?) = true) := by
  intro k
  induction k with
  | zero =>
    intro p hk
    have h1 : I[p + 1]? = none := List.getElem?_eq_none (by omega)
    exact ⟨p, le_refl p, scanNumberFuel_stop (by simp [h1, isNumberComponentO]),
      by simp [h1, isNumberComponentO], by omega⟩
  | succ k ih =>
    intro p hk
    by_cases h : isNumberComponentO (I[p + 1]?)
    · have hp : p + 1 < I.length := by
        by_contra hge
        rw [List.getElem?_eq_none (by omega)] at h
        simp [isNumberComponentO] at h
      obtain ⟨q, hq1, hq2, hq3, hq4⟩ := ih (p + 1) (by omega)
      have hstep : Lexer.scanNumberFuel (I.length + 1) (lexAt I p) =
          Lexer.scanNumberFuel (I.length + 1) (lexAt I (p + 1)) := by
        rw [scanNumberFuel_step h]
        exact scanNumberFuel_irrel _ _ _ (by omega) (by omega)
      refine ⟨q, by omega, hstep.trans hq2, hq3, fun i hi1 hi2 => ?_⟩
      rcases Nat.lt_or_ge p.succ i with hlt | hge
      · exact hq4 i hlt hi2
      · have : i = p + 1 := by omega
        rw [this]; exact h
    · exact ⟨p, le_refl p, scanNumberFuel_stop (by simpa using h), by simpa using h, by omega⟩

/-! ## Lemmas: `readNumber` and `nextToken` characterisation -/

theorem jsSubstring_past {I : List Char} {a b : Nat} (hab : a ≤ b) (ha : I.length ≤ a) :
    jsSubstring I a b = [] := by
  have h1 : min a I.length = I.length := by omega
  have h2 : min b I.length = I.length := by omega
  simp [jsSubstring, h1, h2, List.drop_length]

theorem jsSubstring_lt {I : List Char} {a b : Nat} (hab : a ≤ b) (ha : a < I.length) :
    jsSubstring I a b = (I.drop a).take (min b I.length - a) := by
  have h1 : min a I.length = a := by omega
  have h2 : a ≤ min b I.length := by omega
  simp only [jsSubstring, h1, Nat.max_eq_right h2, Nat.min_eq_left h2]
  exact List.drop_take ..

theorem lexIsWhitespace_some (c : Char) : lexIsWhitespace (some c) = ws3c c := rfl

/-- The digit scan consumes exactly a known digit-or-dot run. -/
theorem scanNumber_exact {I : List Char} :
    ∀ (cs : List Char) (p : Nat) (B : List Char) (f : Nat),
      I.drop (p + 1) = cs ++ B →
      (∀ d ∈ cs, isNumberComponentO (some d) = true) →
      isNumberComponentO B.head? = false →
      cs.length < f →
      Lexer.scanNumberFuel f (lexAt I p) = lexAt I (p + cs.length) := by
  intro cs
  induction cs with
  | nil =>
    intro p B f hdrop hall hB hf
    have hh : I[p + 1]? = B.head? := by
      have := List.getElem?_drop I (p + 1) 0
      rw [hdrop] at this
      simpa [List.head?_eq_getElem?] using this.symm
    match f, hf with
    | f + 1, _ => simpa using scanNumberFuel_stop (by rw [hh]; exact hB)
  | cons d cs ih =>
    intro p B f hdrop hall hB hf
    have hh : I[p + 1]? = some d := by
      have := List.getElem?_drop I (p + 1) 0
      rw [hdrop] at this
      simpa using this.symm
    have hdrop' : I.drop (p + 1 + 1) = cs ++ B := by
      have : I.drop (p + 1 + 1) = (I.drop (p + 1)).drop 1 := by
        rw [List.drop_drop]
      rw [this, hdrop]
      rfl
    match f, hf with
    | f + 1, hf =>
      rw [scanNumberFuel_step (by rw [hh]; exact hall d (by simp))]
      rw [ih (p + 1) B f hdrop' (fun x hx => hall x (by simp [hx])) hB
        (by simp only [List.length_cons] at hf; omega)]
      congr 1
      simp
      omega

/-- Lexing at a position holding one of the seven single-character tokens. -/
theorem nextToken_single {I : List Char} {p : Nat} {c : Char}
    (hc : I[p]? = some c) (hop : op7 c = true) :
    (lexAt I p).nextToken = .ok (⟨opTypeOf c, [c]⟩, lexAt I (p + 1)) := by
  have hp : p < I.length := by
    by_contra hge
    rw [List.getElem?_eq_none (by omega)] at hc
    cases hc
  have hop' : ((((((c = '+' ∨ c = '-') ∨ c = '%') ∨ c = '/') ∨ c = '*') ∨ c = '(') ∨
      c = ')') := by
    simpa [op7] using hop
  have hcond : (lexAt I p)._next_pos ≤ (lexAt I p).input.length := by
    show p + 1 ≤ I.length
    omega
  rcases hop' with ((((((rfl | rfl) | rfl) | rfl) | rfl) | rfl) | rfl) <;>
  · have hstop : (lexAt I p).eatWhitespace = lexAt I p := by
      apply eatWhitespace_stop
      rw [hc, lexIsWhitespace_some]
      rfl
    unfold Lexer.nextToken Lexer.readChar
    rw [if_pos hcond, hstop]
    simp only [lexAt, hc]
    rfl

/-- Lexing at the start of a good number literal followed by a
non-digit-dot boundary yields exactly that literal as a NUMBER token. -/
theorem nextToken_number {I : List Char} {p : Nat} {lit B : List Char}
    (hdrop : I.drop p = lit ++ B)
    (hlit : litGood lit = true)
    (hB : isNumberComponentO B.head? = false) :
    (lexAt I p).nextToken = .ok (⟨.NUMBER, lit⟩, lexAt I (p + lit.length)) := by
  match lit, hlit with
  | c :: cs, hlit =>
    have hgood : op7 c = false ∧ ws3c c = false ∧
        (∀ d ∈ cs, isNumberComponentO (some d) = true) ∧
        jsToNumberIsNaN (c :: cs) = false := by
      have h := hlit
      simp only [litGood, Bool.and_eq_true, Bool.not_eq_true'] at h
      refine ⟨h.1.1.1, h.1.1.2, ?_, h.2⟩
      intro d hd
      have := h.1.2
      rw [List.all_eq_true] at this
      exact this d hd
    have hc : I[p]? = some c := by
      have := List.getElem?_drop I p 0
      rw [hdrop] at this
      simpa using this.symm
    have hp : p < I.length := by
      by_contra hge
      rw [List.getElem?_eq_none (by omega)] at hc
      cases hc
    have hlen : I.length - p = cs.length + 1 + B.length := by
      have h := congrArg List.length hdrop
      simp only [List.length_drop, List.length_append, List.length_cons] at h
      omega
    have hdrop1 : I.drop (p + 1) = cs ++ B := by
      have : I.drop (p + 1) = (I.drop p).drop 1 := by rw [List.drop_drop]
      rw [this, hdrop]
      rfl
    have hscan : Lexer.scanNumberFuel (I.length + 1) (lexAt I p) =
        lexAt I (p + cs.length) :=
      scanNumber_exact cs p B (I.length + 1) hdrop1 hgood.2.2.1 hB (by omega)
    have hble : p + cs.length + 1 ≤ I.length := by omega
    have hsub : jsSubstring I p (p + cs.length + 1) = c :: cs := by
      rw [jsSubstring_lt (by omega) hp]
      rw [Nat.min_eq_left hble]
      have : p + cs.length + 1 - p = (c :: cs).length := by
        simp only [List.length_cons]
        omega
      rw [this, hdrop]
      exact List.take_left ..
    have hread : (lexAt I p).readNumber = (c :: cs, lexAt I (p + cs.length)) := by
      simp only [Lexer.readNumber]
      show (jsSubstring (Lexer.scanNumberFuel (I.length + 1) (lexAt I p)).input p
          ((Lexer.scanNumberFuel (I.length + 1) (lexAt I p))._pos + 1),
        Lexer.scanNumberFuel (I.length + 1) (lexAt I p)) = _
      rw [hscan]
      show (jsSubstring I p (p + cs.length + 1), lexAt I (p + cs.length)) = _
      rw [hsub]
    have hstop : (lexAt I p).eatWhitespace = lexAt I p := by
      apply eatWhitespace_stop
      rw [hc, lexIsWhitespace_some, hgood.2.1]
    have hnotop : ¬(c = '+' ∨ c = '-' ∨ c = '%' ∨ c = '/' ∨ c = '*' ∨ c = '(' ∨ c = ')') := by
      intro hco
      have : op7 c = true := by
        simp only [op7, Bool.or_eq_true, decide_eq_true_eq]
        tauto
      rw [hgood.1] at this
      cases this
    have hcond : (lexAt I p)._next_pos ≤ (lexAt I p).input.length := by
      show p + 1 ≤ I.length
      omega
    have hreadc : (lexAt I p).readChar = (some (c :: cs), lexAt I (p + cs.length)) := by
      unfold Lexer.readChar
      rw [if_pos hcond, hstop]
      show (match (lexAt I p)._c with
        | some '+' => (some ['+'], lexAt I p)
        | some '-' => (some ['-'], lexAt I p)
        | some '%' => (some ['%'], lexAt I p)
        | some '/' => (some ['/'], lexAt I p)
        | some '*' => (some ['*'], lexAt I p)
        | some '(' => (some ['('], lexAt I p)
        | some ')' => (some [')'], lexAt I p)
        | _ => (some ((lexAt I p).readNumber).1, ((lexAt I p).readNumber).2)) =
        (some (c :: cs), lexAt I (p + cs.length))
      rw [show (lexAt I p)._c = some c from hc]
      split
      · rename_i heq; cases heq; exact absurd (by tauto) hnotop
      · rename_i heq; cases heq; exact absurd (by tauto) hnotop
      · rename_i heq; cases heq; exact absurd (by tauto) hnotop
      · rename_i heq; cases heq; exact absurd (by tauto) hnotop
      · rename_i heq; cases heq; exact absurd (by tauto) hnotop
      · rename_i heq; cases heq; exact absurd (by tauto) hnotop
      · rename_i heq; cases heq; exact absurd (by tauto) hnotop
      · rw [hread]
    unfold Lexer.nextToken
    rw [hreadc]
    show (match (c :: cs : List Char) with
      | ['+'] => Except.ok ((⟨.PLUS, c :: cs⟩ : Token), (lexAt I (p + cs.length)).next)
      | ['-'] => Except.ok (⟨.MINUS, c :: cs⟩, (lexAt I (p + cs.length)).next)
      | ['%'] => Except.ok (⟨.MODULO, c :: cs⟩, (lexAt I (p + cs.length)).next)
      | ['/'] => Except.ok (⟨.DIVIDE, c :: cs⟩, (lexAt I (p + cs.length)).next)
      | ['*'] => Except.ok (⟨.MULTIPLY, c :: cs⟩, (lexAt I (p + cs.length)).next)
      | ['('] => Except.ok (⟨.LPAREN, c :: cs⟩, (lexAt I (p + cs.length)).next)
      | [')'] => Except.ok (⟨.RPAREN, c :: cs⟩, (lexAt I (p + cs.length)).next)
      | _ =>
        if jsToNumberIsNaN (c :: cs) then Except.error (PError.invalidNumber (c :: cs))
        else Except.ok (⟨.NUMBER, c :: cs⟩, (lexAt I (p + cs.length)).next)) =
      Except.ok ((⟨.NUMBER, c :: cs⟩ : Token), lexAt I (p + (c :: cs).length))
    split
    · rename_i heq; rw [List.cons.injEq] at heq; exact absurd (by tauto) hnotop
    · rename_i heq; rw [List.cons.injEq] at heq; exact absurd (by tauto) hnotop
    · rename_i heq; rw [List.cons.injEq] at heq; exact absurd (by tauto) hnotop
    · rename_i heq; rw [List.cons.injEq] at heq; exact absurd (by tauto) hnotop
    · rename_i heq; rw [List.cons.injEq] at heq; exact absurd (by tauto) hnotop
    · rename_i heq; rw [List.cons.injEq] at heq; exact absurd (by tauto) hnotop
    · rename_i heq; rw [List.cons.injEq] at heq; exact absurd (by tauto) hnotop
    · rw [if_neg (by rw [hgood.2.2.2]; exact Bool.false_ne_true), lexAt_next]
      show _ = Except.ok ((⟨TokenType.NUMBER, c :: cs⟩ : Token), lexAt I (p + (cs.length + 1)))
      rw [show p + (cs.length + 1) = p + cs.length + 1 from by omega]


/-- Lexing past the end of input yields an EOF token and stays past the
end. -/
theorem nextToken_eof {I : List Char} {p : Nat} (hp : I.length ≤ p) :
    (lexAt I p).nextToken = .ok (eofTok, lexAt I (p + 1)) := by
  unfold Lexer.nextToken Lexer.readChar
  rw [if_neg (show ¬((lexAt I p)._next_pos ≤ (lexAt I p).input.length) from by
    show ¬(p + 1 ≤ I.length); omega)]
  rfl

/-- Skipping one whitespace character that is not in final position does
not change the next token. -/
theorem nextToken_ws {I : List Char} {p : Nat} {c : Char}
    (hc : I[p]? = some c) (hws : ws3c c = true) (hlt : p + 1 < I.length) :
    (lexAt I p).nextToken = (lexAt I (p + 1)).nextToken := by
  have heat : (lexAt I p).eatWhitespace = (lexAt I (p + 1)).eatWhitespace :=
    eatWhitespace_step (by rw [hc, lexIsWhitespace_some, hws])
  have hrc : (lexAt I p).readChar = (lexAt I (p + 1)).readChar := by
    unfold Lexer.readChar
    rw [if_pos (show (lexAt I p)._next_pos ≤ (lexAt I p).input.length from by
        show p + 1 ≤ I.length; omega),
      if_pos (show (lexAt I (p + 1))._next_pos ≤ (lexAt I (p + 1)).input.length from by
        show p + 1 + 1 ≤ I.length; omega),
      heat]
  unfold Lexer.nextToken
  rw [hrc]

/-- `readNumber` at a position past the end of input returns the empty
literal and does not move. -/
theorem readNumber_at_end {I : List Char} {q0 : Nat} (h : I.length ≤ q0) :
    (lexAt I q0).readNumber = ([], lexAt I q0) := by
  have hscan : Lexer.scanNumberFuel (I.length + 1) (lexAt I q0) = lexAt I q0 :=
    scanNumberFuel_stop (by
      rw [List.getElem?_eq_none (show I.length ≤ q0 + 1 by omega)]
      rfl)
  simp only [Lexer.readNumber]
  show (jsSubstring (Lexer.scanNumberFuel (I.length + 1) (lexAt I q0)).input q0
      ((Lexer.scanNumberFuel (I.length + 1) (lexAt I q0))._pos + 1),
    Lexer.scanNumberFuel (I.length + 1) (lexAt I q0)) = _
  rw [hscan]
  show (jsSubstring I q0 (q0 + 1), lexAt I q0) = _
  rw [jsSubstring_past (by omega) h]

/-- `readNumber` at an in-range position: the literal is the current
character followed by the maximal digit-or-dot run after it. -/
theorem readNumber_mid {I : List Char} {q0 : Nat} {c : Char} (hc : I[q0]? = some c) :
    ∃ cs q1, (lexAt I q0).readNumber = (c :: cs, lexAt I q1) ∧
      q1 + 1 = q0 + (c :: cs).length ∧
      (∀ d ∈ cs, isNumberComponentO (some d) = true) ∧
      isNumberComponentO (I[q0 + (c :: cs).length]?) = false := by
  have hq0 : q0 < I.length := by
    by_contra hge
    rw [List.getElem?_eq_none (by omega)] at hc
    cases hc
  obtain ⟨q1, hle, hscan, hstop, hrun⟩ := scanNumber_canon I (I.length - q0) q0 (le_refl _)
  have hq1 : q1 < I.length := by
    rcases Nat.eq_or_lt_of_le hle with heq | hlt
    · omega
    · have hcm := hrun q1 hlt (le_refl q1)
      by_contra hge
      rw [List.getElem?_eq_none (by omega)] at hcm
      simp [isNumberComponentO] at hcm
  obtain ⟨hlt', hcg⟩ := List.getElem?_eq_some.mp hc
  have hcslen : ((I.drop (q0 + 1)).take (q1 - q0)).length = q1 - q0 := by
    simp only [List.length_take, List.length_drop]
    omega
  have hlit : jsSubstring I q0 (q1 + 1) = c :: (I.drop (q0 + 1)).take (q1 - q0) := by
    rw [jsSubstring_lt (by omega) hq0, Nat.min_eq_left (by omega)]
    rw [List.drop_eq_getElem_cons hq0, hcg]
    rw [show q1 + 1 - q0 = (q1 - q0) + 1 from by omega]
    rw [List.take_succ_cons]
  have hread : (lexAt I q0).readNumber = (c :: (I.drop (q0 + 1)).take (q1 - q0), lexAt I q1) := by
    simp only [Lexer.readNumber]
    show (jsSubstring (Lexer.scanNumberFuel (I.length + 1) (lexAt I q0)).input q0
        ((Lexer.scanNumberFuel (I.length + 1) (lexAt I q0))._pos + 1),
      Lexer.scanNumberFuel (I.length + 1) (lexAt I q0)) = _
    rw [hscan]
    show (jsSubstring I q0 (q1 + 1), lexAt I q1) = _
    rw [hlit]
  refine ⟨(I.drop (q0 + 1)).take (q1 - q0), q1, hread,
    by simp only [List.length_cons, hcslen]; omega, ?_, ?_⟩
  · intro d hd
    obtain ⟨j, hj, hdj⟩ := List.mem_iff_getElem.mp hd
    have hjlen : j < q1 - q0 := by
      rw [hcslen] at hj
      exact hj
    have hjI : q0 + 1 + j < I.length := by omega
    have hgj : ((I.drop (q0 + 1)).take (q1 - q0))[j] = I[q0 + 1 + j] := by
      rw [List.getElem_take, List.getElem_drop]
    rw [hgj] at hdj
    have hmem : I[q0 + 1 + j]? = some d :=
      List.getElem?_eq_some.mpr ⟨by omega, hdj⟩
    have hcomp := hrun (q0 + 1 + j) (by omega) (by omega)
    rw [hmem] at hcomp
    exact hcomp
  · rw [show q0 + (c :: (I.drop (q0 + 1)).take (q1 - q0)).length = q1 + 1 from by
      simp only [List.length_cons, hcslen]; omega]
    exact hstop

set_option maxHeartbeats 1600000 in
/-- Every `nextToken` call from a reachable state either returns a
well-shaped token and a reachable state, or fails on an invalid numeric
literal. -/
theorem nextToken_lexAt_cases (I : List Char) (p : Nat) :
    (∃ tok q, (lexAt I p).nextToken = .ok (tok, lexAt I q) ∧ tokGood tok = true) ∨
    (∃ l, (lexAt I p).nextToken = .error (.invalidNumber l) ∧ jsToNumberIsNaN l = true) := by
  by_cases hp : p + 1 ≤ I.length
  case neg =>
    exact .inl ⟨eofTok, p + 1, nextToken_eof (by omega), rfl⟩
  case pos =>
    obtain ⟨q0, hq0le, hq0eat, hq0ws⟩ := eatWhitespace_canon I (I.length - p) p (le_refl _)
    have hcond : (lexAt I p)._next_pos ≤ (lexAt I p).input.length := by
      show p + 1 ≤ I.length
      omega
    cases hq0c : I[q0]? with
    | none =>
      have hq0ge : I.length ≤ q0 := by
        by_contra hlt
        rw [List.getElem?_eq_getElem (show q0 < I.length by omega)] at hq0c
        cases hq0c
      refine .inl ⟨⟨.NUMBER, []⟩, q0 + 1, ?_, rfl⟩
      have hreadc : (lexAt I p).readChar = (some [], lexAt I q0) := by
        unfold Lexer.readChar
        rw [if_pos hcond, hq0eat]
        show (match (lexAt I q0)._c with
          | some '+' => (some ['+'], lexAt I q0)
          | some '-' => (some ['-'], lexAt I q0)
          | some '%' => (some ['%'], lexAt I q0)
          | some '/' => (some ['/'], lexAt I q0)
          | some '*' => (some ['*'], lexAt I q0)
          | some '(' => (some ['('], lexAt I q0)
          | some ')' => (some [')'], lexAt I q0)
          | _ => (some ((lexAt I q0).readNumber).1, ((lexAt I q0).readNumber).2)) = _
        rw [show (lexAt I q0)._c = none from hq0c, readNumber_at_end hq0ge]
      unfold Lexer.nextToken
      rw [hreadc]
      rfl
    | some c =>
      have hws : ws3c c = false := by
        have hws' := hq0ws
        rw [hq0c, lexIsWhitespace_some] at hws'
        exact hws'
      by_cases hop : op7 c = true
      · have hop' : ((((((c = '+' ∨ c = '-') ∨ c = '%') ∨ c = '/') ∨ c = '*') ∨ c = '(') ∨
            c = ')') := by
          simpa [op7] using hop
        refine .inl ⟨⟨opTypeOf c, [c]⟩, q0 + 1, ?_, ?_⟩
        · have hreadc : (lexAt I p).readChar = (some [c], lexAt I q0) := by
            unfold Lexer.readChar
            rw [if_pos hcond, hq0eat]
            rcases hop' with ((((((rfl | rfl) | rfl) | rfl) | rfl) | rfl) | rfl) <;>
              simp [lexAt, hq0c]
          unfold Lexer.nextToken
          rw [hreadc]
          rcases hop' with ((((((rfl | rfl) | rfl) | rfl) | rfl) | rfl) | rfl) <;> rfl
        · rcases hop' with ((((((rfl | rfl) | rfl) | rfl) | rfl) | rfl) | rfl) <;> decide
      · -- number (or invalid literal) starting at q0
        obtain ⟨cs, q1, hread, hq1, hcomps, hbound⟩ := readNumber_mid hq0c
        have hnotop : ¬(c = '+' ∨ c = '-' ∨ c = '%' ∨ c = '/' ∨ c = '*' ∨ c = '(' ∨ c = ')') := by
          intro hco
          apply hop
          simp only [op7, Bool.or_eq_true, decide_eq_true_eq]
          tauto
        have hreadc : (lexAt I p).readChar = (some (c :: cs), lexAt I q1) := by
          unfold Lexer.readChar
          rw [if_pos hcond, hq0eat]
          show (match (lexAt I q0)._c with
            | some '+' => (some ['+'], lexAt I q0)
            | some '-' => (some ['-'], lexAt I q0)
            | some '%' => (some ['%'], lexAt I q0)
            | some '/' => (some ['/'], lexAt I q0)
            | some '*' => (some ['*'], lexAt I q0)
            | some '(' => (some ['('], lexAt I q0)
            | some ')' => (some [')'], lexAt I q0)
            | _ => (some ((lexAt I q0).readNumber).1, ((lexAt I q0).readNumber).2)) = _
          rw [show (lexAt I q0)._c = some c from hq0c]
          split
          · rename_i heq; cases heq; exact absurd (by tauto) hnotop
          · rename_i heq; cases heq; exact absurd (by tauto) hnotop
          · rename_i heq; cases heq; exact absurd (by tauto) hnotop
          · rename_i heq; cases heq; exact absurd (by tauto) hnotop
          · rename_i heq; cases heq; exact absurd (by tauto) hnotop
          · rename_i heq; cases heq; exact absurd (by tauto) hnotop
          · rename_i heq; cases heq; exact absurd (by tauto) hnotop
          · rw [hread]
        have hnext : (lexAt I q1).next = lexAt I (q0 + (c :: cs).length) := by
          rw [lexAt_next, hq1]
        by_cases hnan : jsToNumberIsNaN (c :: cs) = true
        · refine .inr ⟨c :: cs, ?_, hnan⟩
          unfold Lexer.nextToken
          rw [hreadc]
          show (match (c :: cs : List Char) with
            | ['+'] => Except.ok ((⟨.PLUS, c :: cs⟩ : Token), (lexAt I q1).next)
            | ['-'] => Except.ok (⟨.MINUS, c :: cs⟩, (lexAt I q1).next)
            | ['%'] => Except.ok (⟨.MODULO, c :: cs⟩, (lexAt I q1).next)
            | ['/'] => Except.ok (⟨.DIVIDE, c :: cs⟩, (lexAt I q1).next)
            | ['*'] => Except.ok (⟨.MULTIPLY, c :: cs⟩, (lexAt I q1).next)
            | ['('] => Except.ok (⟨.LPAREN, c :: cs⟩, (lexAt I q1).next)
            | [')'] => Except.ok (⟨.RPAREN, c :: cs⟩, (lexAt I q1).next)
            | _ =>
              if jsToNumberIsNaN (c :: cs) then Except.error (PError.invalidNumber (c :: cs))
              else Except.ok (⟨.NUMBER, c :: cs⟩, (lexAt I q1).next)) = _
          split
          · rename_i heq; rw [List.cons.injEq] at heq; exact absurd (by tauto) hnotop
          · rename_i heq; rw [List.cons.injEq] at heq; exact absurd (by tauto) hnotop
          · rename_i heq; rw [List.cons.injEq] at heq; exact absurd (by tauto) hnotop
          · rename_i heq; rw [List.cons.injEq] at heq; exact absurd (by tauto) hnotop
          · rename_i heq; rw [List.cons.injEq] at heq; exact absurd (by tauto) hnotop
          · rename_i heq; rw [List.cons.injEq] at heq; exact absurd (by tauto) hnotop
          · rename_i heq; rw [List.cons.injEq] at heq; exact absurd (by tauto) hnotop
          · rw [if_pos hnan]
        · have hlitgood : litGood (c :: cs) = true := by
            simp only [litGood, Bool.and_eq_true, Bool.not_eq_true']
            refine ⟨⟨⟨Bool.eq_false_iff.mpr hop, hws⟩, ?_⟩, Bool.eq_false_iff.mpr hnan⟩
            rw [List.all_eq_true]
            intro d hd
            exact hcomps d hd
          refine .inl ⟨⟨.NUMBER, c :: cs⟩, q0 + (c :: cs).length, ?_, ?_⟩
          · unfold Lexer.nextToken
            rw [hreadc]
            show (match (c :: cs : List Char) with
              | ['+'] => Except.ok ((⟨.PLUS, c :: cs⟩ : Token), (lexAt I q1).next)
              | ['-'] => Except.ok (⟨.MINUS, c :: cs⟩, (lexAt I q1).next)
              | ['%'] => Except.ok (⟨.MODULO, c :: cs⟩, (lexAt I q1).next)
              | ['/'] => Except.ok (⟨.DIVIDE, c :: cs⟩, (lexAt I q1).next)
              | ['*'] => Except.ok (⟨.MULTIPLY, c :: cs⟩, (lexAt I q1).next)
              | ['('] => Except.ok (⟨.LPAREN, c :: cs⟩, (lexAt I q1).next)
              | [')'] => Except.ok (⟨.RPAREN, c :: cs⟩, (lexAt I q1).next)
              | _ =>
                if jsToNumberIsNaN (c :: cs) then Except.error (PError.invalidNumber (c :: cs))
                else Except.ok (⟨.NUMBER, c :: cs⟩, (lexAt I q1).next)) = _
            split
            · rename_i heq; rw [List.cons.injEq] at heq; exact absurd (by tauto) hnotop
            · rename_i heq; rw [List.cons.injEq] at heq; exact absurd (by tauto) hnotop
            · rename_i heq; rw [List.cons.injEq] at heq; exact absurd (by tauto) hnotop
            · rename_i heq; rw [List.cons.injEq] at heq; exact absurd (by tauto) hnotop
            · rename_i heq; rw [List.cons.injEq] at heq; exact absurd (by tauto) hnotop
            · rename_i heq; rw [List.cons.injEq] at heq; exact absurd (by tauto) hnotop
            · rename_i heq; rw [List.cons.injEq] at heq; exact absurd (by tauto) hnotop
            · rw [if_neg hnan, hnext]
          · show tokGood ⟨.NUMBER, c :: cs⟩ = true
            simp only [tokGood, hlitgood, Bool.or_true]

/-- WF preservation and token shape for a successful `nextToken`. -/
theorem nextToken_wf {lx : Lexer} {tok : Token} {lx' : Lexer}
    (hwf : lx.WF) (h : lx.nextToken = .ok (tok, lx')) :
    lx'.WF ∧ tokGood tok = true ∧ lx'.input = lx.input := by
  have heq := wf_eq_lexAt hwf
  rw [heq] at h
  rcases nextToken_lexAt_cases lx.input lx._pos with ⟨tok2, q, hok, hg⟩ | ⟨l, herr, _⟩
  · rw [hok] at h
    cases h
    exact ⟨lexAt_wf _ _, hg, rfl⟩
  · rw [herr] at h
    cases h

/-- Inversion for a successful `Except` bind. -/
theorem except_bind_ok {ε α β : Type} {x : Except ε α} {f : α → Except ε β} {v : β}
    (h : x >>= f = .ok v) : ∃ a, x = .ok a ∧ f a = .ok v := by
  cases x with
  | ok a => exact ⟨a, rfl, h⟩
  | error e => exact absurd h (by simp [Bind.bind, Except.bind])

/-- A successful `Except` bind of a failure is impossible. -/
theorem except_bind_err {ε α β : Type} {e : ε} {f : α → Except ε β} {v : β}
    (h : (Except.error e : Except ε α) >>= f = .ok v) : False := by
  simp [Bind.bind, Except.bind] at h

/-- The only `nextToken` failure from a reachable state is
`InvalidNumberLiteral` on a literal rejected by `isNaN(+literal)`. -/
theorem nextToken_wf_err {lx : Lexer} {e : PError} (hwf : lx.WF)
    (h : lx.nextToken = .error e) :
    ∃ l, e = .invalidNumber l ∧ jsToNumberIsNaN l = true := by
  rw [wf_eq_lexAt hwf] at h
  rcases nextToken_lexAt_cases lx.input lx._pos with ⟨tok, q, hok, _⟩ | ⟨l, herr, hl⟩
  · rw [hok] at h
    cases h
  · rw [herr] at h
    cases h
    exact ⟨l, rfl, hl⟩

/-- Every lexer-shaped NUMBER token has passed the `isNaN(+literal)`
coercion check. -/
theorem tokGood_number_isNaN {t : Token} (hg : tokGood t = true) (hty : t.type = .NUMBER) :
    jsToNumberIsNaN t.literal = false := by
  obtain ⟨ty, lit⟩ := t
  cases hty
  simp only [tokGood] at hg
  rw [Bool.or_eq_true] at hg
  rcases hg with hg | hg
  · have hl : lit = [] := by simpa using hg
    subst hl
    rfl
  · match lit, hg with
    | c :: cs, hg =>
      simp only [litGood, Bool.and_eq_true, Bool.not_eq_true'] at hg
      exact hg.2

/-- Digit-or-dot characters are not lexer whitespace. -/
theorem comp_not_ws {d : Char} (h : isNumberComponentO (some d) = true) :
    ws3c d = false := by
  simp only [isNumberComponentO, Bool.or_eq_true, decide_eq_true_eq, isDigitChar,
    Bool.and_eq_true, decide_eq_true_eq] at h
  rcases h with rfl | ⟨h1, h2⟩
  · rfl
  · apply Bool.eq_false_iff.mpr
    intro hws
    simp only [ws3c, Bool.or_eq_true, decide_eq_true_eq] at hws
    rcases hws with (rfl | rfl) | rfl
    · exact absurd h1 (by decide)
    · exact absurd h1 (by decide)
    · exact absurd h1 (by decide)

/-- No character of any lexer-shaped token literal is whitespace. -/
theorem tokGood_no_ws {t : Token} (h : tokGood t = true) :
    ∀ c ∈ t.literal, ws3c c = false := by
  obtain ⟨ty, lit⟩ := t
  intro c hc
  cases ty <;> simp only [tokGood] at h
  case EOF =>
    have hl : lit = [] := by simpa using h
    subst hl
    cases hc
  case NUMBER =>
    rw [Bool.or_eq_true] at h
    rcases h with h | h
    · have hl : lit = [] := by simpa using h
      subst hl
      cases hc
    · match lit, h, hc with
      | c0 :: cs, h, hc =>
        simp only [litGood, Bool.and_eq_true, Bool.not_eq_true'] at h
        cases hc with
        | head => exact h.1.1.2
        | tail _ hmem =>
          have hall := h.1.2
          rw [List.all_eq_true] at hall
          exact comp_not_ws (hall c hmem)
  all_goals
    have hl := beq_iff_eq.mp h
    subst hl
    simp only [List.mem_singleton] at hc
    subst hc
    rfl

/-- `Parser.next` preserves parser well-formedness. -/
theorem nextE_wfp {ps ps' : Parser} (hwfp : WFP ps) (h : ps.nextE = .ok ps') :
    WFP ps' := by
  rcases hn : ps.lexer.nextToken with he | ⟨tok, lx'⟩
  · simp [Parser.nextE, hn, Bind.bind, Except.bind] at h
  · obtain ⟨hwf, hg, _⟩ := nextToken_wf hwfp.1 hn
    simp only [Parser.nextE, hn, Bind.bind, Except.bind] at h
    cases h
    exact ⟨hwf, hwfp.2.2, hg⟩

/-- `Parser.expect` preserves parser well-formedness. -/
theorem expectE_wfp {ty : TokenType} {ps ps' : Parser} (hwfp : WFP ps)
    (h : Parser.expectE ty ps = .ok ps') : WFP ps' := by
  unfold Parser.expectE at h
  split at h
  · exact nextE_wfp hwfp h
  · cases h

/-- A freshly constructed parser is well-formed. -/
theorem parserNew_wfp {lx : Lexer} {ps : Parser} (hwf : lx.WF)
    (h : Parser.new lx = .ok ps) : WFP ps := by
  unfold Parser.new at h
  obtain ⟨ps1, h1, h2⟩ := except_bind_ok h
  have hwfp1 : WFP ps1 :=
    @nextE_wfp ⟨lx, eofTok, eofTok⟩ ps1 ⟨hwf, rfl, rfl⟩ h1
  exact nextE_wfp hwfp1 h2

/-- No token kind has precedence `0`, so the strict comparisons against
`-1` and against `0` agree. -/
theorem precLt_neg_one_iff (ty : TokenType) :
    ((-1 : Int) < precedenceGet ty) ↔ ((0 : Int) < precedenceGet ty) := by
  cases ty <;> decide

/-- The climbing loop behaves identically at minimum precedence `-1`
(what `parseGroup` actually passes) and `0`. -/
theorem parseStep_inr_neg_one (n : Nat) :
    ∀ lhs ps, parseStep n (.inr (-1, lhs)) ps = parseStep n (.inr ((0 : Int), lhs)) ps := by
  induction n with
  | zero => intro lhs ps; rfl
  | succ n ih =>
    intro lhs ps
    unfold parseStep
    by_cases h : (0 : Int) < precedenceGet ps._next_token.type
    · rw [if_pos ((precLt_neg_one_iff _).mpr h), if_pos h]
      simp only [ih]
    · rw [if_neg (fun hc => h ((precLt_neg_one_iff _).mp hc)), if_neg h]

/-- `parse(-1)` behaves exactly like `parse(0)`. -/
theorem parseStep_inl_neg_one (n : Nat) :
    ∀ ps, parseStep n (.inl (-1)) ps = parseStep n (.inl (0 : Int)) ps := by
  cases n with
  | zero => intro ps; rfl
  | succ n =>
    intro ps
    unfold parseStep
    simp only [parseStep_inr_neg_one n]

/-- Structural invariant of the parser: from a well-formed state, every
tree a `parse`/climb call returns is built from lexer-shaped tokens, with
operator tokens at unary/binary nodes and NUMBER tokens at leaves, and the
final state is well-formed again.  (For a climb call, the accumulated
left-hand side is assumed well-shaped.) -/
theorem parseStep_good :
    ∀ (n : Nat) (m : Int ⊕ (Int × Expr)) (ps : Parser) (e : Expr) (ps' : Parser),
      WFP ps → (∀ q lhs, m = .inr (q, lhs) → weakGood lhs = true) →
      parseStep n m ps = .ok (e, ps') → WFP ps' ∧ weakGood e = true := by
  intro n
  induction n with
  | zero =>
    intro m ps e ps' _ _ h
    simp [parseStep] at h
  | succ n ih =>
    intro m ps e ps' hwfp hmode h
    cases m with
    | inl p =>
      unfold parseStep at h
      obtain ⟨⟨e1, ps1⟩, hpr, hcl⟩ := except_bind_ok h
      dsimp only at hcl
      have hprimary : WFP ps1 ∧ weakGood e1 = true := by
        split at hpr
        · -- parseGroup
          obtain ⟨psA, hA, hpr⟩ := except_bind_ok hpr
          have hwfpA := nextE_wfp hwfp hA
          obtain ⟨⟨eB, psB⟩, hB, hpr⟩ := except_bind_ok hpr
          have hBgood := ih _ _ _ _ hwfpA (fun q lhs heq => absurd heq (by simp)) hB
          dsimp only at hpr
          obtain ⟨psC, hC, hpr⟩ := except_bind_ok hpr
          have hwfpC := expectE_wfp hBgood.1 hC
          cases hpr
          exact ⟨hwfpC, hBgood.2⟩
        · -- PrefixExpression (unary operator), PLUS
          rename_i hty
          obtain ⟨psA, hA, hpr⟩ := except_bind_ok hpr
          have hwfpA := nextE_wfp hwfp hA
          obtain ⟨⟨eB, psB⟩, hB, hpr⟩ := except_bind_ok hpr
          have hBgood := ih _ _ _ _ hwfpA (fun q lhs heq => absurd heq (by simp)) hB
          dsimp only at hpr
          cases hpr
          refine ⟨hBgood.1, ?_⟩
          simp only [weakGood, Bool.and_eq_true]
          exact ⟨⟨by rw [hty]; rfl, hwfp.2.1⟩, hBgood.2⟩
        · rename_i hty
          obtain ⟨psA, hA, hpr⟩ := except_bind_ok hpr
          have hwfpA := nextE_wfp hwfp hA
          obtain ⟨⟨eB, psB⟩, hB, hpr⟩ := except_bind_ok hpr
          have hBgood := ih _ _ _ _ hwfpA (fun q lhs heq => absurd heq (by simp)) hB
          dsimp only at hpr
          cases hpr
          refine ⟨hBgood.1, ?_⟩
          simp only [weakGood, Bool.and_eq_true]
          exact ⟨⟨by rw [hty]; rfl, hwfp.2.1⟩, hBgood.2⟩
        · rename_i hty
          obtain ⟨psA, hA, hpr⟩ := except_bind_ok hpr
          have hwfpA := nextE_wfp hwfp hA
          obtain ⟨⟨eB, psB⟩, hB, hpr⟩ := except_bind_ok hpr
          have hBgood := ih _ _ _ _ hwfpA (fun q lhs heq => absurd heq (by simp)) hB
          dsimp only at hpr
          cases hpr
          refine ⟨hBgood.1, ?_⟩
          simp only [weakGood, Bool.and_eq_true]
          exact ⟨⟨by rw [hty]; rfl, hwfp.2.1⟩, hBgood.2⟩
        · rename_i hty
          obtain ⟨psA, hA, hpr⟩ := except_bind_ok hpr
          have hwfpA := nextE_wfp hwfp hA
          obtain ⟨⟨eB, psB⟩, hB, hpr⟩ := except_bind_ok hpr
          have hBgood := ih _ _ _ _ hwfpA (fun q lhs heq => absurd heq (by simp)) hB
          dsimp only at hpr
          cases hpr
          refine ⟨hBgood.1, ?_⟩
          simp only [weakGood, Bool.and_eq_true]
          exact ⟨⟨by rw [hty]; rfl, hwfp.2.1⟩, hBgood.2⟩
        · rename_i hty
          obtain ⟨psA, hA, hpr⟩ := except_bind_ok hpr
          have hwfpA := nextE_wfp hwfp hA
          obtain ⟨⟨eB, psB⟩, hB, hpr⟩ := except_bind_ok hpr
          have hBgood := ih _ _ _ _ hwfpA (fun q lhs heq => absurd heq (by simp)) hB
          dsimp only at hpr
          cases hpr
          refine ⟨hBgood.1, ?_⟩
          simp only [weakGood, Bool.and_eq_true]
          exact ⟨⟨by rw [hty]; rfl, hwfp.2.1⟩, hBgood.2⟩
        · -- NumberExpression
          obtain ⟨eA, hA, hpr⟩ := except_bind_ok hpr
          unfold mkNumberExpression at hA
          split at hA
          · rename_i hty
            cases hA
            cases hpr
            refine ⟨hwfp, ?_⟩
            simp only [weakGood, Bool.and_eq_true]
            exact ⟨by rw [hty]; rfl, hwfp.2.1⟩
          · cases hA
      exact ih _ _ _ _ hprimary.1
        (fun q lhs heq => by cases heq; exact hprimary.2) hcl
    | inr pl =>
      obtain ⟨p, lhs⟩ := pl
      have hlhs : weakGood lhs = true := hmode p lhs rfl
      unfold parseStep at h
      split at h
      · obtain ⟨psA, hA, h⟩ := except_bind_ok h
        have hwfpA := nextE_wfp hwfp hA
        split at h
        case _ hty =>
          obtain ⟨psB, hB, h⟩ := except_bind_ok h
          have hwfpB := nextE_wfp hwfpA hB
          obtain ⟨⟨eC, psC⟩, hC, h⟩ := except_bind_ok h
          have hCgood := ih _ _ _ _ hwfpB (fun q l heq => absurd heq (by simp)) hC
          dsimp only at h
          refine ih _ _ _ _ hCgood.1 (fun q l heq => ?_) h
          cases heq
          simp only [weakGood, Bool.and_eq_true]
          exact ⟨⟨⟨by rw [hty]; rfl, hwfpA.2.1⟩, hlhs⟩, hCgood.2⟩
        case _ hty =>
          obtain ⟨psB, hB, h⟩ := except_bind_ok h
          have hwfpB := nextE_wfp hwfpA hB
          obtain ⟨⟨eC, psC⟩, hC, h⟩ := except_bind_ok h
          have hCgood := ih _ _ _ _ hwfpB (fun q l heq => absurd heq (by simp)) hC
          dsimp only at h
          refine ih _ _ _ _ hCgood.1 (fun q l heq => ?_) h
          cases heq
          simp only [weakGood, Bool.and_eq_true]
          exact ⟨⟨⟨by rw [hty]; rfl, hwfpA.2.1⟩, hlhs⟩, hCgood.2⟩
        case _ hty =>
          obtain ⟨psB, hB, h⟩ := except_bind_ok h
          have hwfpB := nextE_wfp hwfpA hB
          obtain ⟨⟨eC, psC⟩, hC, h⟩ := except_bind_ok h
          have hCgood := ih _ _ _ _ hwfpB (fun q l heq => absurd heq (by simp)) hC
          dsimp only at h
          refine ih _ _ _ _ hCgood.1 (fun q l heq => ?_) h
          cases heq
          simp only [weakGood, Bool.and_eq_true]
          exact ⟨⟨⟨by rw [hty]; rfl, hwfpA.2.1⟩, hlhs⟩, hCgood.2⟩
        case _ hty =>
          obtain ⟨psB, hB, h⟩ := except_bind_ok h
          have hwfpB := nextE_wfp hwfpA hB
          obtain ⟨⟨eC, psC⟩, hC, h⟩ := except_bind_ok h
          have hCgood := ih _ _ _ _ hwfpB (fun q l heq => absurd heq (by simp)) hC
          dsimp only at h
          refine ih _ _ _ _ hCgood.1 (fun q l heq => ?_) h
          cases heq
          simp only [weakGood, Bool.and_eq_true]
          exact ⟨⟨⟨by rw [hty]; rfl, hwfpA.2.1⟩, hlhs⟩, hCgood.2⟩
        case _ hty =>
          obtain ⟨psB, hB, h⟩ := except_bind_ok h
          have hwfpB := nextE_wfp hwfpA hB
          obtain ⟨⟨eC, psC⟩, hC, h⟩ := except_bind_ok h
          have hCgood := ih _ _ _ _ hwfpB (fun q l heq => absurd heq (by simp)) hC
          dsimp only at h
          refine ih _ _ _ _ hCgood.1 (fun q l heq => ?_) h
          cases heq
          simp only [weakGood, Bool.and_eq_true]
          exact ⟨⟨⟨by rw [hty]; rfl, hwfpA.2.1⟩, hlhs⟩, hCgood.2⟩
        case _ => cases h
      · cases h
        exact ⟨hwfp, hlhs⟩

/-- A parse whose current token is a NUMBER and whose lookahead has
precedence at most the minimum returns just that number. -/
theorem parseE_number_stop {n : Nat} {p : Int} {ps : Parser}
    (hty : ps._token.type = .NUMBER) (hnt : precedenceGet ps._next_token.type ≤ p) :
    parseE (n + 2) p ps = .ok (.num ps._token, ps) := by
  obtain ⟨lx, ⟨ty, lit⟩, nt⟩ := ps
  cases hty
  have h1 : parseE (n + 2) p ⟨lx, ⟨.NUMBER, lit⟩, nt⟩ =
      parseStep (n + 1) (.inr (p, .num ⟨.NUMBER, lit⟩)) ⟨lx, ⟨.NUMBER, lit⟩, nt⟩ := rfl
  rw [h1]
  unfold parseStep
  rw [if_neg (not_lt.mpr hnt)]

/-- On an all-whitespace input, `eatWhitespace` runs to the end. -/
theorem eat_all_ws (I : List Char) (hall : ∀ c ∈ I, ws3c c = true) :
    ∀ k p, I.length - p ≤ k → p ≤ I.length →
      (lexAt I p).eatWhitespace = lexAt I I.length := by
  intro k
  induction k with
  | zero =>
    intro p hk hp
    have hpe : p = I.length := by omega
    subst hpe
    exact eatWhitespace_stop (by rw [List.getElem?_eq_none (le_refl _)]; rfl)
  | succ k ihk =>
    intro p hk hp
    rcases Nat.eq_or_lt_of_le hp with heq | hlt
    · subst heq
      exact eatWhitespace_stop (by rw [List.getElem?_eq_none (le_refl _)]; rfl)
    · have hc : I[p]? = some (I[p]) := List.getElem?_eq_getElem hlt
      have hws : ws3c (I[p]) = true := hall _ (List.getElem_mem _)
      rw [eatWhitespace_step (by rw [hc, lexIsWhitespace_some, hws])]
      exact ihk (p + 1) (by omega) (by omega)

/-- On a nonempty all-whitespace input, the first token is a NUMBER token
with an empty literal. -/
theorem nextToken_all_ws {I : List Char} (hall : ∀ c ∈ I, ws3c c = true)
    (hne : I ≠ []) :
    (lexAt I 0).nextToken = .ok (⟨.NUMBER, []⟩, lexAt I (I.length + 1)) := by
  have hlen : 1 ≤ I.length := by
    cases I
    · exact absurd rfl hne
    · simp
  have heat : (lexAt I 0).eatWhitespace = lexAt I I.length :=
    eat_all_ws I hall I.length 0 (by omega) (by omega)
  have hreadc : (lexAt I 0).readChar = (some [], lexAt I I.length) := by
    unfold Lexer.readChar
    rw [if_pos (show (lexAt I 0)._next_pos ≤ (lexAt I 0).input.length from by
        show 0 + 1 ≤ I.length; omega),
      heat]
    show (match (lexAt I I.length)._c with
      | some '+' => (some ['+'], lexAt I I.length)
      | some '-' => (some ['-'], lexAt I I.length)
      | some '%' => (some ['%'], lexAt I I.length)
      | some '/' => (some ['/'], lexAt I I.length)
      | some '*' => (some ['*'], lexAt I I.length)
      | some '(' => (some ['('], lexAt I I.length)
      | some ')' => (some [')'], lexAt I I.length)
      | _ => (some ((lexAt I I.length).readNumber).1, ((lexAt I I.length).readNumber).2)) = _
    rw [show (lexAt I I.length)._c = none from List.getElem?_eq_none (le_refl _),
      readNumber_at_end (le_refl _)]
  unfold Lexer.nextToken
  rw [hreadc]
  rfl

/-! ## Simulation: the lazy parser against the token-list parser -/

theorem next_wf (lx : Lexer) : lx.next.WF := ⟨rfl, rfl⟩

/-- Past end of input, `nextToken` yields EOF forever. -/
theorem eofStable_next {lx : Lexer} (h : EOFStable lx) :
    lx.nextToken = .ok (eofTok, lx.next) ∧ EOFStable lx.next := by
  obtain ⟨hwf, hpast⟩ := h
  have heq := wf_eq_lexAt hwf
  have hwf1 := hwf.1
  refine ⟨?_, next_wf lx, ?_⟩
  · calc lx.nextToken = (lexAt lx.input lx._pos).nextToken := by rw [← heq]
    _ = .ok (eofTok, lexAt lx.input (lx._pos + 1)) := nextToken_eof (by omega)
    _ = .ok (eofTok, lx.next) := by rw [← lexAt_next, ← heq]
  · show lx.next.input.length < lx.next._next_pos
    show lx.input.length < lx._next_pos + 1
    omega

/-- The lazy parser's `next` succeeds under the simulation relation and
re-establishes it against the list parser's pop. -/
theorem rel_next {ps : Parser} {st : LSt} (h : Rel ps st) :
    ∃ ps', ps.nextE = .ok ps' ∧ Rel ps' st.nextL := by
  obtain ⟨hcur, hstream⟩ := h
  rcases hstream with ⟨hrest, hnt, hstable⟩ | ⟨M', hrest, hfut⟩
  · obtain ⟨htok, hstable'⟩ := eofStable_next hstable
    refine ⟨⟨ps.lexer.next, ps._next_token, eofTok⟩,
      by simp only [Parser.nextE, htok, Bind.bind, Except.bind], ?_, ?_⟩
    · show ps._next_token = st.nextL.cur
      rw [show st.nextL.cur = st.rest.headD eofTok from rfl, hrest, hnt]
      rfl
    · refine .inl ⟨?_, rfl, hstable'⟩
      show st.rest.tail = []
      rw [hrest]
      rfl
  · cases hfut with
    | nil hstable =>
      obtain ⟨htok, hstable'⟩ := eofStable_next hstable
      refine ⟨⟨ps.lexer.next, ps._next_token, eofTok⟩,
        by simp only [Parser.nextE, htok, Bind.bind, Except.bind], ?_, ?_⟩
      · show ps._next_token = st.nextL.cur
        rw [show st.nextL.cur = st.rest.headD eofTok from rfl, hrest]
        rfl
      · refine .inl ⟨?_, rfl, hstable'⟩
        show st.rest.tail = []
        rw [hrest]
        rfl
    | @cons _ t lx' L htok hfut' =>
      refine ⟨⟨lx', ps._next_token, t⟩,
        by simp only [Parser.nextE, htok, Bind.bind, Except.bind], ?_, ?_⟩
      · show ps._next_token = st.nextL.cur
        rw [show st.nextL.cur = st.rest.headD eofTok from rfl, hrest]
        rfl
      · show StreamRel t lx' st.nextL.rest
        have htail : st.nextL.rest = t :: L := by
          show st.rest.tail = t :: L
          rw [hrest]
          rfl
        exact .inr ⟨L, htail, hfut'⟩

/-- Under the simulation relation, the lookahead tokens agree. -/
theorem rel_peek {ps : Parser} {st : LSt} (h : Rel ps st) :
    ps._next_token = st.peek := by
  rcases h.2 with ⟨hrest, hnt, _⟩ | ⟨M', hrest, _⟩
  · rw [hnt, LSt.peek, hrest]
    rfl
  · rw [LSt.peek, hrest]
    rfl

/-- Bind composition for related results. -/
theorem resrel_bind {x : Except PError (Expr × Parser)} {y : Except PError (Expr × LSt)}
    {f : Expr × Parser → Except PError (Expr × Parser)}
    {g : Expr × LSt → Except PError (Expr × LSt)}
    (hxy : ResRel x y)
    (hfg : ∀ a ps st, Rel ps st → ResRel (f (a, ps)) (g (a, st))) :
    ResRel (x >>= f) (y >>= g) := by
  cases hxy with
  | err e => exact .err e
  | ok hrel => exact hfg _ _ _ hrel

/-- Replace a lazy step known to succeed inside a bind. -/
theorem resrel_of_ok_bind {ps' : Parser} {x : Except PError Parser}
    {f : Parser → Except PError (Expr × Parser)} {y : Except PError (Expr × LSt)}
    (hx : x = .ok ps') (h : ResRel (f ps') y) : ResRel (x >>= f) y := by
  rw [hx]
  exact h

/-- `expect` followed by returning the accumulated pair is simulated. -/
theorem expect_then_ok_sim {a : Expr} {ty : TokenType} {ps : Parser} {st : LSt}
    (h : Rel ps st) :
    ResRel (Parser.expectE ty ps >>= fun psC => .ok (a, psC))
      (expectL ty st >>= fun stC => .ok (a, stC)) := by
  unfold Parser.expectE expectL
  rw [rel_peek h]
  by_cases hcc : st.peek.type = ty
  · rw [if_pos hcc, if_pos hcc]
    obtain ⟨ps', hn, hrel'⟩ := rel_next h
    rw [hn]
    exact .ok hrel'
  · rw [if_neg hcc, if_neg hcc]
    exact .err _

/-- `NumberExpression` construction followed by returning the pair is
simulated. -/
theorem mk_then_ok_sim {tok : Token} {ps : Parser} {st : LSt} (h : Rel ps st) :
    ResRel (mkNumberExpression tok >>= fun e => .ok (e, ps))
      (mkNumberExpression tok >>= fun e => .ok (e, st)) := by
  cases hmk : mkNumberExpression tok with
  | error e => exact .err e
  | ok e => exact .ok h

/-- The simulation: from related states, the lazy lexer-coupled parser and
the token-list parser produce related results, in every mode. -/
theorem parse_sim :
    ∀ (n : Nat) (m : Int ⊕ (Int × Expr)) (ps : Parser) (st : LSt),
      Rel ps st → ResRel (parseStep n m ps) (parseLStep n m st) := by
  intro n
  induction n with
  | zero => intro m ps st _; exact .err _
  | succ n ih =>
    intro m ps st hrel
    obtain ⟨⟨cty, clit⟩, rest⟩ := st
    have hcur := hrel.1
    cases m with
    | inl p =>
      unfold parseStep parseLStep
      rw [hcur]
      refine resrel_bind ?_ (fun a ps2 st2 h2 => ih _ _ _ h2)
      cases cty
      case LPAREN =>
        obtain ⟨psA, hnextE, hrelA⟩ := rel_next hrel
        refine resrel_of_ok_bind hnextE ?_
        refine resrel_bind (ih _ _ _ hrelA) (fun a ps2 st2 h2 => ?_)
        exact expect_then_ok_sim h2
      case PLUS =>
        obtain ⟨psA, hnextE, hrelA⟩ := rel_next hrel
        refine resrel_of_ok_bind hnextE ?_
        exact resrel_bind (ih _ _ _ hrelA) (fun a ps2 st2 h2 => .ok h2)
      case MINUS =>
        obtain ⟨psA, hnextE, hrelA⟩ := rel_next hrel
        refine resrel_of_ok_bind hnextE ?_
        exact resrel_bind (ih _ _ _ hrelA) (fun a ps2 st2 h2 => .ok h2)
      case MODULO =>
        obtain ⟨psA, hnextE, hrelA⟩ := rel_next hrel
        refine resrel_of_ok_bind hnextE ?_
        exact resrel_bind (ih _ _ _ hrelA) (fun a ps2 st2 h2 => .ok h2)
      case DIVIDE =>
        obtain ⟨psA, hnextE, hrelA⟩ := rel_next hrel
        refine resrel_of_ok_bind hnextE ?_
        exact resrel_bind (ih _ _ _ hrelA) (fun a ps2 st2 h2 => .ok h2)
      case MULTIPLY =>
        obtain ⟨psA, hnextE, hrelA⟩ := rel_next hrel
        refine resrel_of_ok_bind hnextE ?_
        exact resrel_bind (ih _ _ _ hrelA) (fun a ps2 st2 h2 => .ok h2)
      case EOF => exact mk_then_ok_sim hrel
      case RPAREN => exact mk_then_ok_sim hrel
      case NUMBER => exact mk_then_ok_sim hrel
    | inr pl =>
      obtain ⟨p, lhs⟩ := pl
      unfold parseStep parseLStep
      rw [rel_peek hrel]
      by_cases hc : p < precedenceGet (LSt.peek ⟨⟨cty, clit⟩, rest⟩).type
      · rw [if_pos hc, if_pos hc]
        obtain ⟨psA, hnextE, hrelA⟩ := rel_next hrel
        refine resrel_of_ok_bind hnextE ?_
        have hcurA := hrelA.1
        rw [hcurA]
        rcases rest with _ | ⟨⟨nty, nlit⟩, rest'⟩
        · exact .err _
        · cases nty
          all_goals first
            | exact .err _
            | (obtain ⟨psB, hnB, hrelB⟩ := rel_next hrelA
               refine resrel_of_ok_bind hnB ?_
               exact resrel_bind (ih _ _ _ hrelB) (fun a ps2 st2 h2 => ih _ _ _ h2))
      · rw [if_neg hc, if_neg hc]
        exact .ok hrel

/-! ## Lexing a printed tree -/

theorem drop_head_get {I : List Char} {p : Nat} {c : Char} {rest : List Char}
    (h : I.drop p = c :: rest) : I[p]? = some c := by
  have h0 := List.getElem?_drop I p 0
  rw [h] at h0
  simpa using h0.symm

theorem drop_succ_of_drop {I : List Char} {p : Nat} {c : Char} {rest : List Char}
    (h : I.drop p = c :: rest) : I.drop (p + 1) = rest := by
  have h2 : I.drop (p + 1) = (I.drop p).drop 1 := by rw [List.drop_drop]
  rw [h2, h]
  rfl

theorem drop_append_shift {I X B : List Char} {p : Nat} (h : I.drop p = X ++ B) :
    I.drop (p + X.length) = B := by
  calc I.drop (p + X.length) = (I.drop p).drop X.length := by rw [List.drop_drop]
  _ = (X ++ B).drop X.length := by rw [h]
  _ = B := List.drop_left ..

theorem FutSeg.append {lx1 lx2 lx3 : Lexer} {L1 L2 : List Token}
    (h1 : FutSeg lx1 L1 lx2) (h2 : FutSeg lx2 L2 lx3) :
    FutSeg lx1 (L1 ++ L2) lx3 := by
  induction h1 with
  | nil => exact h2
  | cons htok _ ih => exact .cons htok (ih h2)

theorem FutSeg.single {lx lx' : Lexer} {t : Token}
    (h : lx.nextToken = .ok (t, lx')) : FutSeg lx [t] lx' :=
  .cons h (.nil _)

/-- The first `nextToken` call of a nonempty segment may start from any
state that produces the same first token (used to absorb a skipped
whitespace character into the following token). -/
theorem FutSeg.congr_first {lx lx' lxe : Lexer} {L : List Token}
    (hne : L ≠ []) (heq : lx.nextToken = lx'.nextToken) (h : FutSeg lx' L lxe) :
    FutSeg lx L lxe := by
  cases h with
  | nil => exact absurd rfl hne
  | cons htok hrest => exact .cons (heq.trans htok) hrest

theorem tokensOf_ne_nil (t : Expr) : tokensOf t ≠ [] := by
  cases t <;> simp [tokensOf]

/-- A lexer-shaped operator token is a single operator character tagged
with its kind. -/
theorem opTok_char {tok : Token} (hop : isOpType tok.type = true) (hg : tokGood tok = true) :
    ∃ c, tok = ⟨opTypeOf c, [c]⟩ ∧ op7 c = true := by
  obtain ⟨ty, lit⟩ := tok
  cases ty <;> simp only [isOpType] at hop <;> try exact absurd hop (by decide)
  case PLUS =>
    have hl : lit = ['+'] := beq_iff_eq.mp hg
    exact ⟨'+', by rw [hl]; rfl, by decide⟩
  case MINUS =>
    have hl : lit = ['-'] := beq_iff_eq.mp hg
    exact ⟨'-', by rw [hl]; rfl, by decide⟩
  case MODULO =>
    have hl : lit = ['%'] := beq_iff_eq.mp hg
    exact ⟨'%', by rw [hl]; rfl, by decide⟩
  case DIVIDE =>
    have hl : lit = ['/'] := beq_iff_eq.mp hg
    exact ⟨'/', by rw [hl]; rfl, by decide⟩
  case MULTIPLY =>
    have hl : lit = ['*'] := beq_iff_eq.mp hg
    exact ⟨'*', by rw [hl]; rfl, by decide⟩

/-- Lexing the printed form of a well-shaped tree, embedded at position
`p` of a larger input and followed by a non-digit boundary, yields exactly
the token sequence of the tree and stops right after it. -/
theorem printlex :
    ∀ (t : Expr), strongGood t = true →
      ∀ (I : List Char) (p : Nat) (B : List Char),
        I.drop p = t.print ++ B →
        isNumberComponentO B.head? = false →
        FutSeg (lexAt I p) (tokensOf t) (lexAt I (p + t.print.length)) := by
  intro t
  induction t with
  | num tok =>
    intro hg I p B hdrop hB
    obtain ⟨ty, lit⟩ := tok
    simp only [strongGood, Bool.and_eq_true, beq_iff_eq] at hg
    cases hg.1
    exact FutSeg.single (nextToken_number hdrop hg.2 hB)
  | unary tok r ihr =>
    intro hg I p B hdrop hB
    simp only [strongGood, Bool.and_eq_true] at hg
    obtain ⟨⟨hop, htokg⟩, hr⟩ := hg
    obtain ⟨c, htokeq, hopc⟩ := opTok_char hop htokg
    have hd0 : I.drop p = '(' :: (c :: (r.print ++ (')' :: B))) := by
      rw [hdrop, Expr.print, htokeq]
      simp [List.append_assoc]
    have hd1 : I.drop (p + 1) = c :: (r.print ++ (')' :: B)) := drop_succ_of_drop hd0
    have hd2 : I.drop (p + 1 + 1) = r.print ++ (')' :: B) := drop_succ_of_drop hd1
    have hsr : FutSeg (lexAt I (p + 1 + 1)) (tokensOf r)
        (lexAt I (p + 1 + 1 + r.print.length)) :=
      ihr hr I (p + 1 + 1) (')' :: B) hd2 rfl
    have hd3 : I.drop (p + 1 + 1 + r.print.length) = ')' :: B := drop_append_shift hd2
    have hlp : Lexer.nextToken (lexAt I p) = .ok (⟨.LPAREN, ['(']⟩, lexAt I (p + 1)) :=
      nextToken_single (drop_head_get hd0) (by decide)
    have hopt : Lexer.nextToken (lexAt I (p + 1)) = .ok (⟨opTypeOf c, [c]⟩, lexAt I (p + 1 + 1)) :=
      nextToken_single (drop_head_get hd1) hopc
    have hrp : Lexer.nextToken (lexAt I (p + 1 + 1 + r.print.length)) =
        .ok (⟨.RPAREN, [')']⟩, lexAt I (p + 1 + 1 + r.print.length + 1)) :=
      nextToken_single (drop_head_get hd3) (by decide)
    have hfinal : p + 1 + 1 + r.print.length + 1 = p + (Expr.print (.unary tok r)).length := by
      simp [Expr.print, htokeq]
      omega
    rw [← htokeq] at hopt
    rw [← hfinal]
    exact .cons hlp (.cons hopt (FutSeg.append hsr (FutSeg.single hrp)))
  | binary tok l r ihl ihr =>
    intro hg I p B hdrop hB
    simp only [strongGood, Bool.and_eq_true] at hg
    obtain ⟨⟨⟨hop, htokg⟩, hl⟩, hr⟩ := hg
    obtain ⟨c, htokeq, hopc⟩ := opTok_char hop htokg
    have hd0 : I.drop p =
        '(' :: (l.print ++ (' ' :: (c :: (' ' :: (r.print ++ (')' :: B)))))) := by
      rw [hdrop, Expr.print, htokeq]
      simp [List.append_assoc]
    have hd1 : I.drop (p + 1) = l.print ++ (' ' :: (c :: (' ' :: (r.print ++ (')' :: B))))) :=
      drop_succ_of_drop hd0
    have hsl : FutSeg (lexAt I (p + 1)) (tokensOf l)
        (lexAt I (p + 1 + l.print.length)) :=
      ihl hl I (p + 1) _ hd1 rfl
    have hd2 : I.drop (p + 1 + l.print.length) =
        ' ' :: (c :: (' ' :: (r.print ++ (')' :: B)))) := drop_append_shift hd1
    have hd3 : I.drop (p + 1 + l.print.length + 1) =
        c :: (' ' :: (r.print ++ (')' :: B))) := drop_succ_of_drop hd2
    have hd4 : I.drop (p + 1 + l.print.length + 1 + 1) =
        ' ' :: (r.print ++ (')' :: B)) := drop_succ_of_drop hd3
    have hd5 : I.drop (p + 1 + l.print.length + 1 + 1 + 1) =
        r.print ++ (')' :: B) := drop_succ_of_drop hd4
    have hlen2 : p + 1 + l.print.length + 1 < I.length := by
      have hc2 := congrArg List.length hd2
      simp only [List.length_drop, List.length_cons] at hc2
      omega
    have hlen4 : p + 1 + l.print.length + 1 + 1 + 1 < I.length := by
      have hc4 := congrArg List.length hd4
      simp only [List.length_drop, List.length_cons, List.length_append] at hc4
      omega
    have hlp : Lexer.nextToken (lexAt I p) = .ok (⟨.LPAREN, ['(']⟩, lexAt I (p + 1)) :=
      nextToken_single (drop_head_get hd0) (by decide)
    have hopt : Lexer.nextToken (lexAt I (p + 1 + l.print.length)) =
        .ok (⟨opTypeOf c, [c]⟩, lexAt I (p + 1 + l.print.length + 1 + 1)) := by
      rw [nextToken_ws (drop_head_get hd2) (by decide) hlen2]
      exact nextToken_single (drop_head_get hd3) hopc
    have hsr : FutSeg (lexAt I (p + 1 + l.print.length + 1 + 1)) (tokensOf r)
        (lexAt I (p + 1 + l.print.length + 1 + 1 + 1 + r.print.length)) := by
      refine FutSeg.congr_first (tokensOf_ne_nil r)
        (nextToken_ws (drop_head_get hd4) (by decide) ?_) ?_
      · omega
      · exact ihr hr I (p + 1 + l.print.length + 1 + 1 + 1) _ hd5 rfl
    have hd6 : I.drop (p + 1 + l.print.length + 1 + 1 + 1 + r.print.length) =
        ')' :: B := drop_append_shift hd5
    have hrp : Lexer.nextToken (lexAt I (p + 1 + l.print.length + 1 + 1 + 1 + r.print.length)) =
        .ok (⟨.RPAREN, [')']⟩,
          lexAt I (p + 1 + l.print.length + 1 + 1 + 1 + r.print.length + 1)) :=
      nextToken_single (drop_head_get hd6) (by decide)
    have hfinal : p + 1 + l.print.length + 1 + 1 + 1 + r.print.length + 1 =
        p + (Expr.print (.binary tok l r)).length := by
      simp [Expr.print, htokeq]
      omega
    rw [← htokeq] at hopt
    rw [← hfinal]
    exact .cons hlp
      (FutSeg.append hsl (.cons hopt (FutSeg.append hsr (FutSeg.single hrp))))

/-! ## The list parser re-reads a printed tree -/

theorem ok_bind {ε α β : Type} (a : α) (f : α → Except ε β) :
    (Except.ok a : Except ε α) >>= f = f a := rfl

theorem primaryL_lparen (n : Nat) (lit : List Char) (rest : List Token) :
    primaryL n ⟨⟨.LPAREN, lit⟩, rest⟩ =
      (parseLStep n (.inl (-1)) ⟨rest.headD eofTok, rest.tail⟩ >>= fun r1 =>
        expectL .RPAREN r1.2 >>= fun st2 => .ok (r1.1, st2)) := rfl

theorem primaryL_op (n : Nat) {ty : TokenType} (hty : isOpType ty = true)
    (lit : List Char) (rest : List Token) :
    primaryL n ⟨⟨ty, lit⟩, rest⟩ =
      (parseLStep n (.inl (precedenceGet ty)) ⟨rest.headD eofTok, rest.tail⟩ >>= fun r1 =>
        .ok (Expr.unary ⟨ty, lit⟩ r1.1, r1.2)) := by
  cases ty <;> first
    | rfl
    | exact absurd hty (by decide)

theorem primaryL_num (n : Nat) (lit : List Char) (rest : List Token) :
    primaryL n ⟨⟨.NUMBER, lit⟩, rest⟩ =
      .ok (.num ⟨.NUMBER, lit⟩, ⟨⟨.NUMBER, lit⟩, rest⟩) := rfl

theorem parseL_unfold (n : Nat) (p : Int) (st : LSt) :
    parseLStep (n + 1) (.inl p) st =
      primaryL n st >>= fun r => parseLStep n (.inr (p, r.1)) r.2 := by
  obtain ⟨⟨cty, clit⟩, rest⟩ := st
  cases cty <;> rfl

theorem climbL_stop {n : Nat} {p : Int} {lhs : Expr} {st : LSt}
    (h : precedenceGet st.peek.type ≤ p) :
    parseLStep (n + 1) (.inr (p, lhs)) st = .ok (lhs, st) := by
  unfold parseLStep
  rw [if_neg (not_lt.mpr h)]

theorem climbL_step {n : Nat} {p : Int} {lhs : Expr} {c0 : Token} {ty : TokenType}
    {lit : List Char} {rest : List Token}
    (hty : isOpType ty = true)
    (hlt : p < precedenceGet (LSt.peek ⟨c0, ⟨ty, lit⟩ :: rest⟩).type) :
    parseLStep (n + 1) (.inr (p, lhs)) ⟨c0, ⟨ty, lit⟩ :: rest⟩ =
      (parseLStep n (.inl (precedenceGet ty)) ⟨rest.headD eofTok, rest.tail⟩ >>= fun r1 =>
        parseLStep n (.inr (p, Expr.binary ⟨ty, lit⟩ lhs r1.1)) r1.2) := by
  cases ty <;> first
    | exact absurd hty (by decide)
    | exact Eq.trans rfl (if_pos hlt)

theorem opType_prec_pos {ty : TokenType} (h : isOpType ty = true) :
    1 ≤ precedenceGet ty := by
  cases ty <;> first
    | exact absurd h (by decide)
    | decide

theorem boundFuel_pos (t : Expr) : 1 ≤ boundFuel t := by
  cases t <;> simp [boundFuel]

theorem boundFuel_le_print (t : Expr) : boundFuel t ≤ 2 * t.print.length + 1 := by
  induction t with
  | num tok => simp [boundFuel]
  | unary tok r ihr =>
    simp only [boundFuel, Expr.print, List.length_cons, List.length_append]
    omega
  | binary tok l r ihl ihr =>
    simp only [boundFuel, Expr.print, List.length_cons, List.length_append]
    omega

theorem weak_noempty_strong {t : Expr} (hw : weakGood t = true)
    (hn : noEmptyLit t = true) : strongGood t = true := by
  induction t with
  | num tok =>
    simp only [weakGood, tokGood, noEmptyLit, strongGood, Bool.and_eq_true,
      Bool.not_eq_true', beq_iff_eq] at *
    obtain ⟨hty, hor⟩ := hw
    refine ⟨hty, ?_⟩
    rw [hty] at hor
    rw [Bool.or_eq_true] at hor
    rcases hor with h | h
    · rw [h] at hn
      cases hn
    · exact h
  | unary tok r ihr =>
    simp only [weakGood, noEmptyLit, strongGood, Bool.and_eq_true] at *
    exact ⟨hw.1, ihr hw.2 hn⟩
  | binary tok l r ihl ihr =>
    simp only [weakGood, noEmptyLit, strongGood, Bool.and_eq_true] at *
    exact ⟨⟨hw.1.1, ihl hw.1.2 hn.1⟩, ihr hw.2 hn.2⟩

theorem futseg_to_fut {lx lx' : Lexer} {L : List Token}
    (h : FutSeg lx L lx') (he : EOFStable lx') : Fut lx L := by
  induction h with
  | nil => exact .nil he
  | cons htok _ ih => exact .cons htok (ih he)

/-- A fresh parser over a lexer with future `t0 :: L` is simulated by the
list state `⟨t0, L⟩`. -/
theorem parser_new_rel {lx : Lexer} {t0 : Token} {L : List Token}
    (h : Fut lx (t0 :: L)) :
    ∃ ps, Parser.new lx = .ok ps ∧ Rel ps ⟨t0, L⟩ := by
  cases h with
  | cons htok hfut =>
    rename_i lx1
    cases hfut with
    | nil hstable =>
      obtain ⟨htok1, hstable'⟩ := eofStable_next hstable
      refine ⟨⟨lx1.next, t0, eofTok⟩, ?_, rfl, .inl ⟨rfl, rfl, hstable'⟩⟩
      simp only [Parser.new, Parser.nextE, htok, htok1, Bind.bind, Except.bind]
    | @cons _ t1 lx2 L' htok1 hfut' =>
      refine ⟨⟨lx2, t0, t1⟩, ?_, rfl, .inr ⟨L', rfl, hfut'⟩⟩
      simp only [Parser.new, Parser.nextE, htok, htok1, Bind.bind, Except.bind]

/-- The list parser re-reads the token sequence of a printed well-shaped
tree: positioned at the first token of `tokensOf t` (with any continuation
`R` behind it), the primary-operand parser consumes exactly the tokens of
`t`, rebuilds `t` itself, and stops with the last token of `t` current and
`R` pending. -/
theorem parse_back :
    ∀ t : Expr, strongGood t = true → ∀ (R : List Token) (n : Nat), boundFuel t ≤ n →
      primaryL n (stOf (tokensOf t) R) = .ok (t, ⟨lastTokOf t, R⟩) := by
  intro t
  induction t with
  | num tok =>
    intro hg R n _
    obtain ⟨ty, lit⟩ := tok
    simp only [strongGood, Bool.and_eq_true, beq_iff_eq] at hg
    cases hg.1
    exact primaryL_num n lit R
  | unary tok r ihr =>
    intro hg R n hn
    obtain ⟨ty, lit⟩ := tok
    simp only [strongGood, Bool.and_eq_true] at hg
    obtain ⟨⟨hop, -⟩, hsr⟩ := hg
    obtain ⟨t0r, Lr, hTr⟩ : ∃ a s, tokensOf r = a :: s := by
      cases htr : tokensOf r with
      | nil => exact absurd htr (tokensOf_ne_nil r)
      | cons a s => exact ⟨a, s, rfl⟩
    have hbr := boundFuel_pos r
    simp only [boundFuel] at hn
    obtain ⟨n₁, rfl⟩ : ∃ m, n = m + 1 := ⟨n - 1, by omega⟩
    obtain ⟨n₂, rfl⟩ : ∃ m, n₁ = m + 1 := ⟨n₁ - 1, by omega⟩
    obtain ⟨n₃, rfl⟩ : ∃ m, n₂ = m + 1 := ⟨n₂ - 1, by omega⟩
    simp only [tokensOf, stOf, lastTokOf, hTr, List.cons_append, List.append_assoc,
      List.singleton_append, List.nil_append, List.headD_cons, List.tail_cons]
    rw [primaryL_lparen]
    simp only [List.headD_cons, List.tail_cons]
    rw [parseL_unfold]
    rw [primaryL_op _ hop]
    simp only [List.headD_cons, List.tail_cons]
    rw [parseL_unfold]
    have hIH := ihr hsr ((⟨.RPAREN, [')']⟩ : Token) :: R) (n₃ + 1) (by omega)
    simp only [hTr, stOf, List.cons_append, List.append_assoc, List.singleton_append,
      List.nil_append, List.headD_cons, List.tail_cons] at hIH
    rw [hIH]
    simp only [ok_bind]
    rw [climbL_stop (le_trans
      (show precedenceGet (LSt.peek ⟨lastTokOf r, (⟨.RPAREN, [')']⟩ : Token) :: R⟩).type ≤
        (1 : Int) from by show (-1 : Int) ≤ (1 : Int); decide) (opType_prec_pos hop))]
    simp only [ok_bind]
    rw [climbL_stop
      (show precedenceGet (LSt.peek ⟨lastTokOf r, (⟨.RPAREN, [')']⟩ : Token) :: R⟩).type ≤
        (-1 : Int) from by show (-1 : Int) ≤ (-1 : Int); decide)]
    simp only [ok_bind]
    rw [show expectL .RPAREN ⟨lastTokOf r, (⟨.RPAREN, [')']⟩ : Token) :: R⟩ =
      .ok (⟨⟨.RPAREN, [')']⟩, R⟩ : LSt) from rfl]
    simp only [ok_bind]
  | binary tok l r ihl ihr =>
    intro hg R n hn
    obtain ⟨ty, lit⟩ := tok
    simp only [strongGood, Bool.and_eq_true] at hg
    obtain ⟨⟨⟨hop, -⟩, hsl⟩, hsr⟩ := hg
    obtain ⟨t0l, Ll, hTl⟩ : ∃ a s, tokensOf l = a :: s := by
      cases htl : tokensOf l with
      | nil => exact absurd htl (tokensOf_ne_nil l)
      | cons a s => exact ⟨a, s, rfl⟩
    obtain ⟨t0r, Lr, hTr⟩ : ∃ a s, tokensOf r = a :: s := by
      cases htr : tokensOf r with
      | nil => exact absurd htr (tokensOf_ne_nil r)
      | cons a s => exact ⟨a, s, rfl⟩
    have hbl := boundFuel_pos l
    have hbr := boundFuel_pos r
    simp only [boundFuel] at hn
    obtain ⟨n₁, rfl⟩ : ∃ m, n = m + 1 := ⟨n - 1, by omega⟩
    obtain ⟨n₂, rfl⟩ : ∃ m, n₁ = m + 1 := ⟨n₁ - 1, by omega⟩
    obtain ⟨n₃, rfl⟩ : ∃ m, n₂ = m + 1 := ⟨n₂ - 1, by omega⟩
    obtain ⟨n₄, rfl⟩ : ∃ m, n₃ = m + 1 := ⟨n₃ - 1, by omega⟩
    simp only [tokensOf, stOf, lastTokOf, hTl, hTr, List.cons_append, List.append_assoc,
      List.singleton_append, List.nil_append, List.headD_cons, List.tail_cons]
    rw [primaryL_lparen]
    simp only [List.headD_cons, List.tail_cons]
    rw [parseL_unfold]
    have hIHl := ihl hsl
      ((⟨ty, lit⟩ : Token) :: (tokensOf r ++ ((⟨.RPAREN, [')']⟩ : Token) :: R)))
      (n₄ + 1 + 1 + 1) (by omega)
    simp only [hTl, hTr, stOf, List.cons_append, List.append_assoc, List.singleton_append,
      List.nil_append, List.headD_cons, List.tail_cons] at hIHl
    rw [hIHl]
    simp only [ok_bind]
    rw [climbL_step hop
      (lt_of_lt_of_le (show (-1 : Int) < 1 by decide) (opType_prec_pos hop))]
    simp only [List.headD_cons, List.tail_cons]
    rw [parseL_unfold]
    have hIHr := ihr hsr ((⟨.RPAREN, [')']⟩ : Token) :: R) (n₄ + 1) (by omega)
    simp only [hTr, stOf, List.cons_append, List.append_assoc, List.singleton_append,
      List.nil_append, List.headD_cons, List.tail_cons] at hIHr
    rw [hIHr]
    simp only [ok_bind]
    rw [climbL_stop (le_trans
      (show precedenceGet (LSt.peek ⟨lastTokOf r, (⟨.RPAREN, [')']⟩ : Token) :: R⟩).type ≤
        (1 : Int) from by show (-1 : Int) ≤ (1 : Int); decide) (opType_prec_pos hop))]
    simp only [ok_bind]
    rw [climbL_stop
      (show precedenceGet (LSt.peek ⟨lastTokOf r, (⟨.RPAREN, [')']⟩ : Token) :: R⟩).type ≤
        (-1 : Int) from by show (-1 : Int) ≤ (-1 : Int); decide)]
    simp only [ok_bind]
    rw [show expectL .RPAREN ⟨lastTokOf r, (⟨.RPAREN, [')']⟩ : Token) :: R⟩ =
      .ok (⟨⟨.RPAREN, [')']⟩, R⟩ : LSt) from rfl]
    simp only [ok_bind]

/-- Full list-side run: with enough fuel, a `parse(0)` call on exactly the
token sequence of a well-shaped tree returns the tree and exhausts the
stream. -/
theorem parseL_roundtrip {t : Expr} (hg : strongGood t = true) {t0 : Token}
    {L : List Token} (hT : tokensOf t = t0 :: L) {n : Nat}
    (hn : boundFuel t + 2 ≤ n) :
    parseLStep n (.inl 0) ⟨t0, L⟩ = .ok (t, ⟨lastTokOf t, []⟩) := by
  have hb := boundFuel_pos t
  obtain ⟨n₁, rfl⟩ : ∃ m, n = m + 1 := ⟨n - 1, by omega⟩
  obtain ⟨n₂, rfl⟩ : ∃ m, n₁ = m + 1 := ⟨n₁ - 1, by omega⟩
  rw [parseL_unfold]
  have hpb := parse_back t hg [] (n₂ + 1) (by omega)
  rw [hT] at hpb
  simp only [stOf, List.headD_cons, List.tail_cons, List.append_nil] at hpb
  rw [hpb]
  simp only [ok_bind]
  rw [climbL_stop
    (show precedenceGet (LSt.peek ⟨lastTokOf t, ([] : List Token)⟩).type ≤ (0 : Int)
      from by show (-1 : Int) ≤ (0 : Int); decide)]

/-! ## Claim theorems: concrete precedence/associativity/grouping facts -/

/-- C1: the parser honors standard precedence of `*` over `+`:
`"1 + 2 * 3"` parses (and prints) as `(1 + (2 * 3))`, while `"1 * 2 + 3"`
parses as `((1 * 2) + 3)`. -/
theorem claim_C1_precedence :
    (parseInput "1 + 2 * 3".toList).map Expr.print = .ok "(1 + (2 * 3))".toList ∧
    (parseInput "1 * 2 + 3".toList).map Expr.print = .ok "((1 * 2) + 3)".toList :=
  ⟨rfl, rfl⟩

/-- C2: equal-precedence chains group left-associatively: `"8 / 4 / 2"`
parses as `((8 / 4) / 2)`; in general the climbing loop exits (keeping the
accumulated left-hand side) whenever the lookahead token's precedence
equals the loop's minimum precedence, because its condition is strict `<`
(JavaScript `p < nextPrecedence()`). -/
theorem claim_C2_left_assoc :
    (parseInput "8 / 4 / 2".toList).map Expr.print = .ok "((8 / 4) / 2)".toList ∧
    (∀ (n : Nat) (lhs : Expr) (ps : Parser),
      climbE (n + 1) (precedenceGet ps._next_token.type) lhs ps = .ok (lhs, ps)) := by
  refine ⟨rfl, fun n lhs ps => ?_⟩
  show parseStep (n + 1) (.inr (precedenceGet ps._next_token.type, lhs)) ps = .ok (lhs, ps)
  unfold parseStep
  rw [if_neg (lt_irrefl _)]

/-- C3: on a `(` the parser parses a complete sub-expression and then
requires a `)` (consume-or-fail via `expect`); the minimum precedence it
passes — `currentPrecedence()` of `(`, i.e. `-1` — is interchangeable with
the spec's `0` (`parseStep_inl_neg_one`: no token has precedence `0`), so
grouping overrides ambient precedence: `"(1 + 2) * 3"` parses as
`((1 + 2) * 3)`. -/
theorem claim_C3_grouping :
    ((parseInput "(1 + 2) * 3".toList).map Expr.print = .ok "((1 + 2) * 3)".toList) ∧
    (∀ (n : Nat) (p : Int) (lx : Lexer) (lit : List Char) (nt : Token),
      parseE (n + 1) p ⟨lx, ⟨.LPAREN, lit⟩, nt⟩ =
        (do
          let ps1 ← Parser.nextE ⟨lx, ⟨.LPAREN, lit⟩, nt⟩
          let r ← parseE n 0 ps1
          let ps2 ← Parser.expectE .RPAREN r.2
          (.ok (r.1, ps2) : Except PError (Expr × Parser))) >>=
        fun lhs => climbE n p lhs.1 lhs.2) := by
  refine ⟨rfl, fun n p lx lit nt => ?_⟩
  show parseStep (n + 1) (.inl p) _ = _
  unfold parseStep
  simp only [parseE, climbE, precedenceGet, parseStep_inl_neg_one n]

/-- C4: a prefix operator's operand is parsed at that operator's own
precedence (`PrefixExpression` captures the operator, advances, and calls
`parse(currentPrecedence())`); consequently in `"-2 + 4.5 * 7 - -8"` each
unary minus attaches exactly to its adjacent number literal and the tree
prints as `(((-2) + (4.5 * 7)) - (-8))`. -/
theorem claim_C4_unary :
    ((parseInput "-2 + 4.5 * 7 - -8".toList).map Expr.print =
      .ok "(((-2) + (4.5 * 7)) - (-8))".toList) ∧
    (∀ (n : Nat) (p : Int) (ps : Parser), isOpType ps._token.type = true →
      parseE (n + 1) p ps =
        (do
          let ps1 ← ps.nextE
          let r ← parseE n (precedenceGet ps._token.type) ps1
          (.ok (Expr.unary ps._token r.1, r.2) : Except PError (Expr × Parser))) >>=
        fun lhs => climbE n p lhs.1 lhs.2) := by
  refine ⟨rfl, fun n p ps h => ?_⟩
  obtain ⟨lx, ⟨ty, lit⟩, nt⟩ := ps
  cases ty <;> try rfl
  all_goals simp [isOpType] at h

/-- C4 witness: the general unfolding of `claim_C4_unary` instantiated at a
concrete parser state whose current token is a unary minus. -/
theorem claim_C4_unary_witness :
    isOpType (Parser._token ⟨Lexer.new [], ⟨.MINUS, ['-']⟩, eofTok⟩).type = true ∧
    parseE 1 0 ⟨Lexer.new [], ⟨.MINUS, ['-']⟩, eofTok⟩ =
      (do
        let ps1 ← Parser.nextE ⟨Lexer.new [], ⟨.MINUS, ['-']⟩, eofTok⟩
        let r ← parseE 0
          (precedenceGet (Parser._token ⟨Lexer.new [], ⟨.MINUS, ['-']⟩, eofTok⟩).type) ps1
        (.ok (Expr.unary (Parser._token ⟨Lexer.new [], ⟨.MINUS, ['-']⟩, eofTok⟩) r.1, r.2) :
          Except PError (Expr × Parser))) >>=
      fun lhs => climbE 0 0 lhs.1 lhs.2 :=
  ⟨by decide, claim_C4_unary.2 0 0 ⟨Lexer.new [], ⟨.MINUS, ['-']⟩, eofTok⟩ (by decide)⟩

/-- C6: an opening `(` that is never closed aborts the parse: on
`"(1 + 2"`, `parseGroup`'s `expect(RPAREN)` finds EOF and throws
(`expected "RPAREN" but got "EOF"` — the code's `UnmatchedParenthesis`
failure), so no tree is returned. -/
theorem claim_C6_unmatched_paren :
    parseInput "(1 + 2".toList = .error (.expectedType .RPAREN .EOF) :=
  rfl

/-- C7 counterexample: the claim states that a closing paren with nothing
open (e.g. `"1)"`) fails with `UnexpectedToken` and no partial tree is
returned — but the code parses `"1)"` successfully, returning the tree for
`"1"` and silently ignoring the trailing `)` (its precedence `-1` simply
stops the climbing loop). -/
theorem claim_C7_counterexample :
    (parseInput "1)".toList).map Expr.print = .ok "1".toList :=
  rfl

/-- C7 (amended): two consecutive numbers (e.g. `"1 2"`) fail with
`UnexpectedToken` (`expected operator but got "NUMBER"`) and no tree is
returned; but a closing paren with nothing open does NOT fail: the parser
stops in front of it and returns the tree of the preceding expression,
leaving the `)` unconsumed. -/
theorem claim_C7_amended :
    parseInput "1 2".toList = .error (.expectedOperator .NUMBER) ∧
    (parseInput "1)".toList).map Expr.print = .ok "1".toList :=
  ⟨rfl, rfl⟩

/-- C8 counterexample: the claim states every NUMBER token's literal is a
syntactically valid numeric string (digits with an optional dot) — but
lexing the all-whitespace input `" "` emits a NUMBER token whose literal is
the empty string, which contains no digit (the `isNaN(+literal)` check
passes because `+"" === 0` in JavaScript). -/
theorem claim_C8_counterexample :
    (Lexer.new " ".toList).nextToken = .ok (⟨.NUMBER, []⟩, ⟨" ".toList, none, 2, 3⟩) ∧
    specValidNumericLiteral [] = false :=
  ⟨rfl, rfl⟩

/-- C8 (amended): every NUMBER token the lexer emits (from a reachable
state) has a literal that passes the JavaScript coercion check
`isNaN(+literal)` — which admits the empty string scanned at end of input,
not only digit strings; a scanned run that fails the check makes
`nextToken` fail with `InvalidNumberLiteral` (e.g. `"1.2.3"`), and that is
the only lexer-level failure mode. -/
theorem claim_C8_amended :
    (∀ (lx : Lexer) (tok : Token) (lx' : Lexer), lx.WF → lx.nextToken = .ok (tok, lx') →
      tok.type = .NUMBER → jsToNumberIsNaN tok.literal = false) ∧
    (∀ (lx : Lexer) (e : PError), lx.WF → lx.nextToken = .error e →
      ∃ l, e = .invalidNumber l ∧ jsToNumberIsNaN l = true) ∧
    (Lexer.new "1.2.3".toList).nextToken = .error (.invalidNumber "1.2.3".toList) := by
  refine ⟨?_, ?_, rfl⟩
  · intro lx tok lx' hwf h hty
    exact tokGood_number_isNaN (nextToken_wf hwf h).2.1 hty
  · intro lx e hwf h
    exact nextToken_wf_err hwf h

/-- C8 witness: the amended lexer invariant instantiated at the concrete
inputs `"1"` (a NUMBER token that passed the check) and `"1.2.3"` (the
invalid-literal failure). -/
theorem claim_C8_amended_witness :
    jsToNumberIsNaN "1".toList = false ∧
    ∃ l, (PError.invalidNumber "1.2.3".toList) = .invalidNumber l ∧
      jsToNumberIsNaN l = true :=
  ⟨claim_C8_amended.1 (Lexer.new "1".toList) ⟨.NUMBER, ['1']⟩ ⟨"1".toList, none, 1, 2⟩
      ⟨rfl, rfl⟩ rfl rfl,
   claim_C8_amended.2.1 (Lexer.new "1.2.3".toList) _ ⟨rfl, rfl⟩ rfl⟩

/-- C9 counterexample: the claim states that appending whitespace to a
successfully parsed input preserves the parse — but `"1"` parses while
`"1 "` (with one trailing space) fails: the trailing whitespace makes the
lexer emit an empty NUMBER token, which the climbing loop rejects with
`expected operator but got "NUMBER"`. -/
theorem claim_C9_counterexample :
    (parseInput "1".toList).map Expr.print = .ok "1".toList ∧
    parseInput "1 ".toList = .error (.expectedOperator .NUMBER) :=
  ⟨rfl, rfl⟩

/-- C9 (amended): whitespace (space, tab, newline) never appears in any
emitted token's literal, and inserting whitespace before or between tokens
preserves the parse (concrete instances below) — but *appending* trailing
whitespace can break it: after the final token a whitespace run makes the
lexer emit an empty NUMBER token, so `"1 "` fails with `UnexpectedToken`
although `"1"` parses. -/
theorem claim_C9_amended :
    (∀ (lx : Lexer) (tok : Token) (lx' : Lexer), lx.WF → lx.nextToken = .ok (tok, lx') →
      ∀ c ∈ tok.literal, ws3c c = false) ∧
    (parseInput " 1".toList).map Expr.print = .ok "1".toList ∧
    (parseInput "1 +\t2".toList).map Expr.print = .ok "(1 + 2)".toList ∧
    (parseInput "1+2".toList).map Expr.print = .ok "(1 + 2)".toList ∧
    parseInput "1 ".toList = .error (.expectedOperator .NUMBER) := by
  refine ⟨?_, rfl, rfl, rfl, rfl⟩
  intro lx tok lx' hwf h
  exact tokGood_no_ws (nextToken_wf hwf h).2.1

/-- C9 witness: the no-whitespace-in-literals invariant instantiated at
the concrete lexing of `"1"`. -/
theorem claim_C9_amended_witness : ws3c '1' = false :=
  claim_C9_amended.1 (Lexer.new "1".toList) ⟨.NUMBER, ['1']⟩ ⟨"1".toList, none, 1, 2⟩
    ⟨rfl, rfl⟩ rfl '1' (by simp)

/-- C10: every nonempty input consisting only of whitespace parses
successfully: `eatWhitespace` runs to end of input, `readNumber` then
scans an empty substring that passes the `isNaN` check (`+"" === 0`), so
`parse` returns a `NumberExpression` whose literal is the empty string,
whose value `parseFloat("")` is `NaN`, and whose `print()` is empty. -/
theorem claim_C10_whitespace_only :
    ∀ s : List Char, s ≠ [] → (∀ c ∈ s, c = ' ' ∨ c = '\t' ∨ c = '\n') →
      parseInput s = .ok (.num ⟨.NUMBER, []⟩) ∧
      NumberExpression.value ⟨.NUMBER, []⟩ = .nan ∧
      Expr.print (.num ⟨.NUMBER, []⟩) = [] := by
  intro s hne hall
  refine ⟨?_, rfl, rfl⟩
  have hall' : ∀ c ∈ s, ws3c c = true := by
    intro c hc
    rcases hall c hc with rfl | rfl | rfl <;> rfl
  have ht1 := nextToken_all_ws hall' hne
  have ht2 : (lexAt s (s.length + 1)).nextToken = .ok (eofTok, lexAt s (s.length + 1 + 1)) :=
    nextToken_eof (by omega)
  have hnew : Parser.new (Lexer.new s) =
      .ok ⟨lexAt s (s.length + 1 + 1), ⟨.NUMBER, []⟩, eofTok⟩ := by
    rw [Lexer_new_eq]
    simp only [Parser.new, Parser.nextE, ht1, ht2, Bind.bind, Except.bind]
  unfold parseInput
  rw [hnew]
  simp only [Bind.bind, Except.bind]
  rw [show parserFuel s = 2 * s.length + 14 + 2 from rfl]
  rw [@parseE_number_stop (2 * s.length + 14) 0 ⟨lexAt s (s.length + 1 + 1), ⟨.NUMBER, []⟩, eofTok⟩
    rfl (show precedenceGet TokenType.EOF ≤ (0 : Int) by decide)]

/-- C10 witness: the whitespace-only behaviour at the concrete input
`" \t\n"`. -/
theorem claim_C10_whitespace_only_witness :
    parseInput " \t\n".toList = .ok (.num ⟨.NUMBER, []⟩) ∧
    NumberExpression.value ⟨.NUMBER, []⟩ = .nan ∧
    Expr.print (.num ⟨.NUMBER, []⟩) = [] :=
  claim_C10_whitespace_only " \t\n".toList (by decide) (by decide)

/-- C5 counterexample: the claim states round-trip idempotence for every
successfully parsed input — but `" "` parses successfully to an empty-
literal `NumberExpression` whose `print()` is the empty string, and
re-parsing the empty string fails (`expected "NUMBER" but got "EOF"`). -/
theorem claim_C5_counterexample :
    parseInput " ".toList = .ok (.num ⟨.NUMBER, []⟩) ∧
    Expr.print (.num ⟨.NUMBER, []⟩) = [] ∧
    parseInput (Expr.print (.num ⟨.NUMBER, []⟩)) = .error (.expectedNumber .EOF) :=
  ⟨rfl, rfl, rfl⟩

/-- C5 (amended): round-trip idempotence holds for every successful parse
whose tree has no empty number literal.  If `parseInput s = .ok t` and no
NUMBER leaf of `t` carries the empty literal, then lexing and re-parsing
the printed form `t.print` succeeds and returns `t` itself — in particular
a tree whose print is character-identical to `t.print`.  (The unamended
claim, quantified over every successful parse, is refuted by
`claim_C5_counterexample`: `" "` parses to an empty-literal number whose
print `""` does not re-parse.) -/
theorem claim_C5_amended (s : List Char) (t : Expr)
    (hparse : parseInput s = .ok t) (hne : noEmptyLit t = true) :
    parseInput t.print = .ok t := by
  have hweak : weakGood t = true := by
    unfold parseInput at hparse
    obtain ⟨ps0, hnew, hparse2⟩ := except_bind_ok hparse
    obtain ⟨⟨e1, ps1⟩, hrun, hlast⟩ := except_bind_ok hparse2
    cases Except.ok.inj hlast
    exact (parseStep_good (parserFuel s) (.inl 0) ps0 e1 ps1
      (parserNew_wfp (lexAt_wf s 0) hnew)
      (fun q lhs h => Sum.noConfusion h) hrun).2
  have hstrong : strongGood t = true := weak_noempty_strong hweak hne
  have hseg := printlex t hstrong t.print 0 [] (by simp) rfl
  have hfut : Fut (lexAt t.print 0) (tokensOf t) :=
    futseg_to_fut hseg
      ⟨lexAt_wf _ _, by show t.print.length < 0 + t.print.length + 1; omega⟩
  obtain ⟨t0, L, hT⟩ : ∃ a s1, tokensOf t = a :: s1 := by
    cases hx : tokensOf t with
    | nil => exact absurd hx (tokensOf_ne_nil t)
    | cons a s1 => exact ⟨a, s1, rfl⟩
  rw [hT] at hfut
  obtain ⟨ps, hnew2, hrel⟩ := parser_new_rel hfut
  have hlist : parseLStep (parserFuel t.print) (.inl 0) ⟨t0, L⟩ =
      .ok (t, ⟨lastTokOf t, []⟩) := by
    apply parseL_roundtrip hstrong hT
    have h1 := boundFuel_le_print t
    simp only [parserFuel]
    omega
  have hsim := parse_sim (parserFuel t.print) (.inl 0) ps ⟨t0, L⟩ hrel
  rw [hlist] at hsim
  cases hE : parseStep (parserFuel t.print) (.inl 0) ps with
  | error e =>
    rw [hE] at hsim
    cases hsim
  | ok rp =>
    obtain ⟨e2, ps2⟩ := rp
    rw [hE] at hsim
    cases hsim with
    | ok hrel2 =>
      unfold parseInput
      rw [Lexer_new_eq, hnew2]
      simp only [ok_bind]
      unfold parseE
      rw [hE]
      simp only [ok_bind]

/-- Witness for `claim_C5_amended`: the input `"1 + 2"` parses to a tree
with no empty number literal, and re-parsing its print returns the same
tree. -/
theorem claim_C5_amended_witness :
    parseInput "1 + 2".toList =
      .ok (.binary ⟨.PLUS, ['+']⟩ (.num ⟨.NUMBER, ['1']⟩) (.num ⟨.NUMBER, ['2']⟩)) ∧
    noEmptyLit (.binary ⟨.PLUS, ['+']⟩ (.num ⟨.NUMBER, ['1']⟩) (.num ⟨.NUMBER, ['2']⟩)) =
      true ∧
    parseInput
        (Expr.print (.binary ⟨.PLUS, ['+']⟩ (.num ⟨.NUMBER, ['1']⟩) (.num ⟨.NUMBER, ['2']⟩))) =
      .ok (.binary ⟨.PLUS, ['+']⟩ (.num ⟨.NUMBER, ['1']⟩) (.num ⟨.NUMBER, ['2']⟩)) :=
  ⟨rfl, rfl, claim_C5_amended "1 + 2".toList _ rfl rfl⟩

end Sketchpad
